import Mathlib

/-!
# Verification of `src/lab-1/experiment.cpp`

A shallow embedding, in Lean 4, of the sorting-benchmark program
`lab-1/experiment.cpp`: the `Soldier` record type and its ordering, the four
sorting routines (`insertion_sort`, `shaker_sort`, `merge`/`merge_sort`, and
the `std::sort` baseline), the CSV reading/writing helpers (`split`,
`read_csv`, `write_csv`) and the benchmark harness `get_time`.

Modelling conventions:
* `std::vector<T>` ranges become `List` values; iterator positions become
  natural-number indices into the list; `std::iter_swap(j, j+1)` becomes
  `iterSwap l j`.
* Loops become structural recursions on an explicit iteration count that is
  exactly the number of iterations the C++ loop performs.  The unbounded
  recursion of `merge_sort` is modelled with explicit fuel returning
  `Option`, `none` meaning that the recursion does not reach a base case
  within the given fuel; `mergeSortF_nil_eq_none` shows `none` is returned
  for every fuel on the empty range, i.e. the C++ recursion never
  terminates there.
* `std::string` comparison (`operator<`, lexicographic on characters) is
  modelled by `charListLt` on the character list of the string.
* `std::chrono::steady_clock` readings are modelled by a monotone function
  `clock : Nat → Int` giving the tick value of the n-th `now()` call
  (`steady_clock`'s representation is an integral tick count; the C++ code's
  conversion of a tick difference to `double` seconds divides by a positive
  constant, which preserves sign and order, so elapsed times are modelled as
  tick differences).
* Reading a file is modelled by an environment `fs : String → Option (List
  String)` mapping a file name to its list of lines, `none` when the file
  cannot be opened.  Output (`std::ofstream`, `std::cerr`) is modelled as
  data returned by the function: the list of `(filename, lines)` pairs
  written, and the count of `"read_csv: Couldn't open file"` messages.
-/

set_option linter.unusedSectionVars false

/-- `struct Soldier`: a dataset row (full name, job, unit, salary). -/
structure Soldier where
  full_name : String
  job : String
  unit : String
  salary : Int
deriving DecidableEq, Repr

instance : Inhabited Soldier := ⟨⟨"", "", "", 0⟩⟩

/-- `std::string` `operator<`: lexicographic comparison of the character
sequences (`std::lexicographical_compare` over the characters). -/
def charListLt : List Char → List Char → Bool
  | _, [] => false
  | [], _ :: _ => true
  | a :: as, b :: bs => if a < b then true else if b < a then false else charListLt as bs

/-- `std::string` comparison on whole strings. -/
def strLt (a b : String) : Bool := charListLt a.data b.data

/-- `operator<(const Soldier&, const Soldier&)`:
`std::tie(a.unit, a.full_name, a.salary) < std::tie(b.unit, b.full_name, b.salary)`,
i.e. lexicographic comparison of the key tuple (unit, full_name, salary). -/
def sLT (a b : Soldier) : Bool :=
  if strLt a.unit b.unit then true
  else if strLt b.unit a.unit then false
  else if strLt a.full_name b.full_name then true
  else if strLt b.full_name a.full_name then false
  else decide (a.salary < b.salary)

/-- The ordering key tuple `(unit, full_name, salary)` used by the
relational operators of `Soldier`. -/
def sKey (a : Soldier) : String × String × Int := (a.unit, a.full_name, a.salary)

/-- Records with equal ordering key tuples (the comparator reports neither
strictly before the other exactly in this case, see `eqvB_sLT_iff_sameKey`). -/
def sameKey (a b : Soldier) : Bool := decide (sKey a = sKey b)

/-- Strict-weak-order equivalence induced by a boolean comparator:
neither argument strictly precedes the other. -/
def eqvB {α : Type} (comp : α → α → Bool) (a x : α) : Bool :=
  !(comp x a) && !(comp a x)

/-! ## Strict-weak-order facts for the comparators

`charListLt` is shown to coincide with the lexicographic strict order on
`List Char`, and `sLT` with the strict order of the lexicographic product
`List Char ×ₗ List Char ×ₗ Int`; irreflexivity, transitivity and
transitivity of incomparability then follow from the `LinearOrder`
structure. -/

theorem charListLt_iff : ∀ as bs : List Char, charListLt as bs = true ↔ as < bs := by
  intro as
  induction as with
  | nil =>
    intro bs
    cases bs with
    | nil =>
      simp only [charListLt, Bool.false_eq_true, false_iff]
      exact lt_irrefl _
    | cons b bs =>
      simp only [charListLt, true_iff]
      exact List.Lex.nil
  | cons a as ih =>
    intro bs
    cases bs with
    | nil =>
      simp only [charListLt, Bool.false_eq_true, false_iff]
      exact List.Lex.not_nil_right _ _
    | cons b bs =>
      simp only [charListLt]
      by_cases h1 : a < b
      · simp only [h1, if_true, true_iff]
        exact List.Lex.rel h1
      · by_cases h2 : b < a
        · simp only [h1, h2, if_false, if_true, Bool.false_eq_true, false_iff]
          intro hlex
          cases hlex with
          | cons h => exact lt_irrefl _ h2
          | rel h => exact h1 h
        · have hab : a = b := le_antisymm (not_lt.mp h2) (not_lt.mp h1)
          subst hab
          simp only [lt_irrefl, if_false, ih bs]
          exact (List.Lex.cons_iff).symm

/-- The ordering key of a record, as an element of the lexicographic product
order (strings viewed as their character lists). -/
def keyLex (a : Soldier) : List Char ×ₗ List Char ×ₗ Int :=
  toLex (a.unit.data, toLex (a.full_name.data, a.salary))

theorem sLT_iff (a b : Soldier) : sLT a b = true ↔ keyLex a < keyLex b := by
  unfold sLT keyLex strLt
  rw [Prod.Lex.lt_iff, Prod.Lex.lt_iff]
  by_cases h1 : charListLt a.unit.data b.unit.data = true
  · simp only [h1, if_true, true_iff]
    exact Or.inl ((charListLt_iff _ _).mp h1)
  · have h1' : ¬ a.unit.data < b.unit.data := fun h =>
      h1 ((charListLt_iff _ _).mpr h)
    by_cases h2 : charListLt b.unit.data a.unit.data = true
    · have h2' : b.unit.data < a.unit.data := (charListLt_iff _ _).mp h2
      simp only [h1, h2, if_true, if_false, Bool.false_eq_true, false_iff]
      rintro (h | ⟨heq, _⟩)
      · exact h1' h
      · rw [heq] at h2'
        exact lt_irrefl _ h2'
    · have h2' : ¬ b.unit.data < a.unit.data := fun h =>
        h2 ((charListLt_iff _ _).mpr h)
      have hu : a.unit.data = b.unit.data := le_antisymm (not_lt.mp h2') (not_lt.mp h1')
      rw [if_neg h1, if_neg h2]
      simp only [hu, lt_self_iff_false, false_or, eq_self_iff_true, true_and]
      by_cases h3 : charListLt a.full_name.data b.full_name.data = true
      · rw [if_pos h3]
        simp only [true_iff]
        exact Or.inl ((charListLt_iff _ _).mp h3)
      · have h3' : ¬ a.full_name.data < b.full_name.data := fun h =>
          h3 ((charListLt_iff _ _).mpr h)
        by_cases h4 : charListLt b.full_name.data a.full_name.data = true
        · have h4' : b.full_name.data < a.full_name.data := (charListLt_iff _ _).mp h4
          rw [if_neg h3, if_pos h4]
          simp only [Bool.false_eq_true, false_iff]
          rintro (h | ⟨heq, _⟩)
          · exact h3' h
          · rw [heq] at h4'
            exact lt_irrefl _ h4'
        · have h4' : ¬ b.full_name.data < a.full_name.data := fun h =>
            h4 ((charListLt_iff _ _).mpr h)
          have hn : a.full_name.data = b.full_name.data :=
            le_antisymm (not_lt.mp h4') (not_lt.mp h3')
          rw [if_neg h3, if_neg h4]
          simp only [hn, lt_self_iff_false, false_or, eq_self_iff_true, true_and,
            decide_eq_true_eq]

theorem strLt_irrefl (s : String) : strLt s s = false := by
  rw [← Bool.not_eq_true]
  intro h
  rw [strLt, charListLt_iff] at h
  exact lt_irrefl _ h

theorem sLT_irrefl (a : Soldier) : sLT a a = false := by
  rw [← Bool.not_eq_true, sLT_iff]
  exact lt_irrefl _

theorem sLT_trans {a b c : Soldier} (h1 : sLT a b = true) (h2 : sLT b c = true) :
    sLT a c = true := by
  rw [sLT_iff] at h1 h2 ⊢
  exact lt_trans h1 h2

theorem sLT_negtrans {a b c : Soldier} (h1 : sLT a b = false) (h2 : sLT b c = false) :
    sLT a c = false := by
  rw [← Bool.not_eq_true, sLT_iff] at h1 h2 ⊢
  exact fun h => h1 (lt_of_lt_of_le h (not_lt.mp h2))

theorem sLT_asymm {a b : Soldier} (h : sLT a b = true) : sLT b a = false := by
  rw [sLT_iff] at h
  rw [← Bool.not_eq_true, sLT_iff]
  exact lt_asymm h

theorem strData_inj : ∀ {s t : String}, s.data = t.data → s = t := by
  intro s t h
  cases s
  cases t
  cases h
  rfl

theorem sLT_eq_of_not {a b : Soldier} (h1 : sLT a b = false) (h2 : sLT b a = false) :
    sKey a = sKey b := by
  rw [← Bool.not_eq_true, sLT_iff] at h1 h2
  have hk : keyLex a = keyLex b := le_antisymm (not_lt.mp h2) (not_lt.mp h1)
  unfold keyLex at hk
  rw [toLex_inj] at hk
  have hu : a.unit.data = b.unit.data := congrArg Prod.fst hk
  have hk2 := congrArg Prod.snd hk
  rw [toLex_inj] at hk2
  have hn : a.full_name.data = b.full_name.data := congrArg Prod.fst hk2
  have hs : a.salary = b.salary := congrArg Prod.snd hk2
  simp [sKey, strData_inj hu, strData_inj hn, hs]

/-- Two records are `sLT`-incomparable exactly when their ordering key tuples
are equal. -/
theorem eqvB_sLT_iff_sameKey (a x : Soldier) :
    eqvB sLT a x = true ↔ sameKey x a = true := by
  constructor
  · intro h
    simp only [eqvB, Bool.and_eq_true, Bool.not_eq_true'] at h
    simp [sameKey, sLT_eq_of_not h.1 h.2]
  · intro h
    simp only [sameKey, decide_eq_true_eq, sKey, Prod.mk.injEq] at h
    obtain ⟨hu, hn, hs⟩ := h
    simp [eqvB, sLT, hu, hn, hs, strLt_irrefl, Bool.not_eq_true']

/-! ## List-surgery primitives -/

/-- `std::iter_swap` on adjacent positions: swap the elements at positions
`j` and `j+1` (identity when `j+1` is out of range; the modelled code only
ever swaps in-range positions). -/
def iterSwap {α : Type} : List α → Nat → List α
  | a :: b :: t, 0 => b :: a :: t
  | a :: t, j+1 => a :: iterSwap t j
  | l, _ => l

theorem iterSwap_nil {α : Type} (j : Nat) : iterSwap ([] : List α) j = [] := by
  cases j <;> rfl

theorem length_iterSwap {α : Type} : ∀ (l : List α) (j : Nat),
    (iterSwap l j).length = l.length := by
  intro l
  induction l with
  | nil => intro j; rw [iterSwap_nil]
  | cons a t ih =>
    intro j
    cases j with
    | zero =>
      cases t with
      | nil => rfl
      | cons b t' => rfl
    | succ j =>
      simp only [iterSwap, List.length_cons, ih]

theorem iterSwap_perm {α : Type} : ∀ (l : List α) (j : Nat), (iterSwap l j).Perm l := by
  intro l
  induction l with
  | nil => intro j; rw [iterSwap_nil]
  | cons a t ih =>
    intro j
    cases j with
    | zero =>
      cases t with
      | nil => exact List.Perm.refl _
      | cons b t' => exact List.Perm.swap a b t'
    | succ j =>
      simp only [iterSwap]
      exact List.Perm.cons a (ih j)

theorem iterSwap_append {α : Type} :
    ∀ (A : List α) (x y : α) (B : List α),
    iterSwap (A ++ x :: y :: B) A.length = A ++ y :: x :: B := by
  intro A
  induction A with
  | nil => intro x y B; rfl
  | cons a A' ih =>
    intro x y B
    simp only [List.cons_append, List.length_cons, iterSwap, ih]

theorem getD_append_self {α : Type} (A : List α) (x : α) (B : List α) (d : α) :
    (A ++ x :: B).getD A.length d = x := by
  rw [List.getD_append_right A (x :: B) d A.length (le_refl _)]
  simp

/-! ## `insertion_sort`

```cpp
template <std::random_access_iterator RandomAccessIterator, class Compare>
void insertion_sort(RandomAccessIterator first, RandomAccessIterator last,
                    Compare comp) {
  for (auto i = first + 1; i < last; ++i) {
    auto t = *i;
    for (auto j = i - 1; j >= first; --j) {
      if (comp(t, *j)) {
        std::iter_swap(j, j + 1);
      }
    }
  }
}
```

The inner loop (index `j` running from `i-1` down to `0`, comparing the
saved value `t` against `*j` and swapping positions `j`,`j+1` on success) is
`insInner`; the outer loop (index `i` running from `1` while `i < last`,
i.e. `length - 1` iterations) is `insertionSortAux` with an explicit
iteration count. -/

/-- Inner loop of `insertion_sort`: run the body for indices `j, j-1, …, 0`. -/
def insInner {α : Type} [Inhabited α] (comp : α → α → Bool) (t : α) : Nat → List α → List α
  | 0, l => if comp t (l.getD 0 default) then iterSwap l 0 else l
  | j+1, l => insInner comp t j (if comp t (l.getD (j+1) default) then iterSwap l (j+1) else l)

/-- Outer loop of `insertion_sort`: `fuel` remaining iterations, current
index `i`. -/
def insertionSortAux {α : Type} [Inhabited α] (comp : α → α → Bool) :
    Nat → Nat → List α → List α
  | 0, _, l => l
  | fuel+1, i, l =>
      insertionSortAux comp fuel (i+1) (insInner comp (l.getD i default) (i-1) l)

/-- `insertion_sort(v.begin(), v.end(), comp)` on the list model: the outer
loop runs for `i = 1, …, length-1`. -/
def insertion_sort {α : Type} [Inhabited α] (comp : α → α → Bool) (l : List α) : List α :=
  insertionSortAux comp (l.length - 1) 1 l

/-- Ordered insertion keeping the new element after all elements it does not
strictly precede (reference function used to describe `insertion_sort`). -/
def insertLeft {α : Type} (comp : α → α → Bool) (t : α) : List α → List α
  | [] => [t]
  | x :: xs => if comp t x then t :: x :: xs else x :: insertLeft comp t xs

/-- Left-to-right insertion-sort reference model. -/
def insFold {α : Type} (comp : α → α → Bool) (l : List α) : List α :=
  l.foldl (fun acc x => insertLeft comp x acc) []

/-- The output of a sort is non-decreasing under `comp`: no element strictly
precedes an element that appears before it. -/
def NDSorted {α : Type} (comp : α → α → Bool) (l : List α) : Prop :=
  l.Pairwise (fun a b => comp b a = false)

section GenericSort

variable {α : Type} [Inhabited α] {comp : α → α → Bool}

theorem comp_asymm (hirr : ∀ a, comp a a = false)
    (htrans : ∀ a b c, comp a b = true → comp b c = true → comp a c = true)
    {a b : α} (h : comp a b = true) : comp b a = false := by
  cases hh : comp b a with
  | false => rfl
  | true =>
    have := htrans _ _ _ h hh
    rw [hirr] at this
    exact Bool.noConfusion this

theorem insertLeft_perm (t : α) : ∀ l : List α, (insertLeft comp t l).Perm (t :: l) := by
  intro l
  induction l with
  | nil => exact List.Perm.refl _
  | cons x xs ih =>
    show (if comp t x then t :: x :: xs else x :: insertLeft comp t xs).Perm _
    by_cases h : comp t x = true
    · rw [if_pos h]
    · rw [if_neg h]
      exact (List.Perm.cons x ih).trans (List.Perm.swap t x xs)

theorem length_insertLeft (t : α) (l : List α) :
    (insertLeft comp t l).length = l.length + 1 := by
  rw [(insertLeft_perm t l).length_eq]
  rfl

theorem mem_insertLeft {t z : α} {l : List α} :
    z ∈ insertLeft comp t l ↔ z = t ∨ z ∈ l := by
  rw [(insertLeft_perm t l).mem_iff]
  simp

theorem insertLeft_append_last {t b : α} (h : comp t b = true) :
    ∀ A : List α, insertLeft comp t (A ++ [b]) = insertLeft comp t A ++ [b] := by
  intro A
  induction A with
  | nil => show insertLeft comp t [b] = [t] ++ [b]; simp [insertLeft, h]
  | cons x A' ih =>
    show insertLeft comp t (x :: (A' ++ [b])) = _
    by_cases hx : comp t x = true
    · simp [insertLeft, hx]
    · simp [insertLeft, hx, ih]

theorem insertLeft_eq_append {t : α} :
    ∀ {A : List α}, (∀ x ∈ A, comp t x = false) → insertLeft comp t A = A ++ [t] := by
  intro A
  induction A with
  | nil => intro _; rfl
  | cons x A' ih =>
    intro h
    have hx : comp t x = false := h x (List.mem_cons_self x A')
    show (if comp t x then t :: x :: A' else x :: insertLeft comp t A') = _
    rw [hx]
    simp only [Bool.false_eq_true, if_false, List.cons_append, List.cons.injEq, true_and]
    exact ih (fun y hy => h y (List.mem_cons_of_mem x hy))

theorem NDSorted_insertLeft (hirr : ∀ a, comp a a = false)
    (htrans : ∀ a b c, comp a b = true → comp b c = true → comp a c = true)
    {t : α} : ∀ {l : List α}, NDSorted comp l → NDSorted comp (insertLeft comp t l) := by
  intro l
  induction l with
  | nil => intro _; simp [insertLeft, NDSorted]
  | cons x xs ih =>
    intro hs
    rw [NDSorted, List.pairwise_cons] at hs
    obtain ⟨hx, hxs⟩ := hs
    show NDSorted comp (if comp t x then t :: x :: xs else x :: insertLeft comp t xs)
    by_cases h : comp t x = true
    · rw [if_pos h]
      rw [NDSorted, List.pairwise_cons]
      constructor
      · intro z hz
        rcases List.mem_cons.mp hz with rfl | hz'
        · exact comp_asymm hirr htrans h
        · cases hzt : comp z t with
          | false => rfl
          | true =>
            have : comp z x = true := htrans _ _ _ hzt h
            rw [hx z hz'] at this
            exact Bool.noConfusion this
      · rw [List.pairwise_cons]
        exact ⟨hx, hxs⟩
    · rw [if_neg h]
      rw [NDSorted, List.pairwise_cons]
      constructor
      · intro z hz
        rcases mem_insertLeft.mp hz with rfl | hz'
        · exact Bool.not_eq_true _ ▸ (Bool.not_eq_true (comp z x)).mp h
        · exact hx z hz'
      · exact ih hxs

end GenericSort

section GenericSort2

variable {α : Type} [Inhabited α] {comp : α → α → Bool}

/-- If the saved key `t` strictly precedes no element of the already-scanned
prefix `A`, the rest of the inner loop leaves the list unchanged. -/
theorem insInner_no_swap {t : α} :
    ∀ A : List α, A ≠ [] → (∀ x ∈ A, comp t x = false) →
    ∀ S : List α, insInner comp t (A.length - 1) (A ++ S) = A ++ S := by
  intro A
  induction A using List.reverseRecOn with
  | nil => intro h; exact absurd rfl h
  | append_singleton Q b ih =>
    intro _ hall S
    have hb : comp t b = false := hall b (by simp)
    by_cases hQ : Q = []
    · subst hQ
      show insInner comp t 0 (b :: S) = b :: S
      simp [insInner, hb]
    · obtain ⟨q, hq⟩ : ∃ q, Q.length = q + 1 :=
        ⟨Q.length - 1, (Nat.succ_pred_eq_of_pos (List.length_pos.mpr hQ)).symm⟩
    
      have hlen : (Q ++ [b]).length - 1 = q + 1 := by simp [hq]
      rw [hlen]
      have hList : (Q ++ [b]) ++ S = Q ++ (b :: S) := by simp
      rw [hList]
      show insInner comp t q
          (if comp t ((Q ++ b :: S).getD (q+1) default) then
            iterSwap (Q ++ b :: S) (q+1) else Q ++ b :: S) = _
      rw [← hq, getD_append_self, hb]
      simp only [Bool.false_eq_true, if_false]
      have := ih hQ (fun x hx => hall x (by simp [hx])) (b :: S)
      rw [hq] at this
      simpa using this

/-- One step of the outer loop: running the inner loop with saved key `t`
sitting right after a sorted prefix `P` inserts `t` into `P` after every
element it does not strictly precede. -/
theorem insInner_spec
    (hirr : ∀ a, comp a a = false)
    (htrans : ∀ a b c, comp a b = true → comp b c = true → comp a c = true)
    (hneg : ∀ a b c, comp a b = false → comp b c = false → comp a c = false)
    {t : α} :
    ∀ P : List α, P ≠ [] → NDSorted comp P →
    ∀ S, insInner comp t (P.length - 1) (P ++ t :: S) = insertLeft comp t P ++ S := by
  intro P
  induction P using List.reverseRecOn with
  | nil => intro h; exact absurd rfl h
  | append_singleton Q b ih =>
    intro _ hsort S
    by_cases hQ : Q = []
    · subst hQ
      show insInner comp t 0 (b :: t :: S) = insertLeft comp t [b] ++ S
      by_cases hb : comp t b = true
      · simp [insInner, hb, iterSwap, insertLeft]
      · simp [insInner, hb, insertLeft]
    · obtain ⟨q, hq⟩ : ∃ q, Q.length = q + 1 :=
        ⟨Q.length - 1, (Nat.succ_pred_eq_of_pos (List.length_pos.mpr hQ)).symm⟩
      have hsQ : NDSorted comp Q :=
        List.Pairwise.sublist (List.sublist_append_left Q [b]) hsort
      have hQb : ∀ x ∈ Q, comp b x = false := by
        intro x hx
        have := (List.pairwise_append.mp hsort).2.2
        exact this x hx b (by simp)
      have hlen : (Q ++ [b]).length - 1 = q + 1 := by simp [hq]
      rw [hlen]
      have hList : (Q ++ [b]) ++ t :: S = Q ++ (b :: t :: S) := by simp
      rw [hList]
      show insInner comp t q
          (if comp t ((Q ++ b :: t :: S).getD (q+1) default) then
            iterSwap (Q ++ b :: t :: S) (q+1) else Q ++ b :: t :: S) = _
      rw [← hq, getD_append_self]
      by_cases hb : comp t b = true
      · rw [if_pos hb, iterSwap_append]
        have := ih hQ hsQ (b :: S)
        rw [hq] at this
        have h2 : insInner comp t q (Q ++ t :: b :: S) = insertLeft comp t Q ++ b :: S := by
          simpa using this
        rw [h2, insertLeft_append_last hb]
        simp
      · rw [if_neg hb]
        have hall : ∀ x ∈ Q, comp t x = false := by
          intro x hx
          exact hneg t b x (Bool.not_eq_true _ ▸ (Bool.not_eq_true (comp t b)).mp hb) (hQb x hx)
        have hnoop := insInner_no_swap Q hQ hall (b :: t :: S)
        rw [hq] at hnoop
        have h2 : insInner comp t q (Q ++ b :: t :: S) = Q ++ b :: t :: S := by
          simpa using hnoop
        rw [h2]
        have hallb : ∀ x ∈ Q ++ [b], comp t x = false := by
          intro x hx
          rcases List.mem_append.mp hx with hx' | hx'
          · exact hall x hx'
          · rcases List.mem_singleton.mp hx' with rfl
            exact Bool.not_eq_true _ ▸ (Bool.not_eq_true (comp t x)).mp hb
        rw [insertLeft_eq_append hallb]
        simp

/-- The outer loop starting from a sorted non-empty prefix `P` with suffix
`S` computes the left fold of ordered insertion over `S`. -/
theorem insertionSortAux_spec
    (hirr : ∀ a, comp a a = false)
    (htrans : ∀ a b c, comp a b = true → comp b c = true → comp a c = true)
    (hneg : ∀ a b c, comp a b = false → comp b c = false → comp a c = false) :
    ∀ (S P : List α), P ≠ [] → NDSorted comp P →
    insertionSortAux comp S.length P.length (P ++ S) =
      S.foldl (fun acc x => insertLeft comp x acc) P := by
  intro S
  induction S with
  | nil =>
    intro P _ _
    show insertionSortAux comp 0 P.length (P ++ []) = P
    simp [insertionSortAux]
  | cons t S' ih =>
    intro P hP hsort
    show insertionSortAux comp (S'.length + 1) P.length (P ++ t :: S') = _
    have hstep : insertionSortAux comp (S'.length + 1) P.length (P ++ t :: S') =
        insertionSortAux comp S'.length (P.length + 1)
          (insInner comp ((P ++ t :: S').getD P.length default) (P.length - 1)
            (P ++ t :: S')) := rfl
    rw [hstep, getD_append_self, insInner_spec hirr htrans hneg P hP hsort S']
    have hlen : P.length + 1 = (insertLeft comp t P).length := (length_insertLeft t P).symm
    rw [hlen]
    have hne : insertLeft comp t P ≠ [] := by
      intro h
      have : (insertLeft comp t P).length = P.length + 1 := length_insertLeft t P
      rw [h] at this
      simp at this
    exact ih (insertLeft comp t P) hne (NDSorted_insertLeft hirr htrans hsort)

/-- `insertion_sort` computes the left-to-right ordered-insertion fold. -/
theorem insertion_sort_eq_insFold
    (hirr : ∀ a, comp a a = false)
    (htrans : ∀ a b c, comp a b = true → comp b c = true → comp a c = true)
    (hneg : ∀ a b c, comp a b = false → comp b c = false → comp a c = false)
    (l : List α) : insertion_sort comp l = insFold comp l := by
  cases l with
  | nil => rfl
  | cons h rest =>
    show insertionSortAux comp ((h :: rest).length - 1) 1 (h :: rest) = _
    have hl : (h :: rest).length - 1 = rest.length := by simp
    rw [hl]
    have := insertionSortAux_spec hirr htrans hneg rest [h] (by simp)
      (by simp [NDSorted])
    simpa [insFold] using this

theorem foldl_insertLeft_perm :
    ∀ (S acc : List α), (S.foldl (fun acc x => insertLeft comp x acc) acc).Perm (acc ++ S) := by
  intro S
  induction S with
  | nil => intro acc; simp
  | cons t S' ih =>
    intro acc
    show (S'.foldl _ (insertLeft comp t acc)).Perm _
    refine (ih (insertLeft comp t acc)).trans ?_
    refine (List.Perm.append_right S' (insertLeft_perm t acc)).trans ?_
    exact List.perm_middle.symm

theorem insFold_perm (l : List α) : (insFold comp l).Perm l := by
  have : (l.foldl (fun acc x => insertLeft comp x acc) []).Perm ([] ++ l) :=
    foldl_insertLeft_perm l []
  simpa [insFold] using this

theorem foldl_insertLeft_sorted
    (hirr : ∀ a, comp a a = false)
    (htrans : ∀ a b c, comp a b = true → comp b c = true → comp a c = true) :
    ∀ (S acc : List α), NDSorted comp acc →
    NDSorted comp (S.foldl (fun acc x => insertLeft comp x acc) acc) := by
  intro S
  induction S with
  | nil => intro acc h; exact h
  | cons t S' ih =>
    intro acc h
    exact ih (insertLeft comp t acc) (NDSorted_insertLeft hirr htrans h)

theorem NDSorted_insFold
    (hirr : ∀ a, comp a a = false)
    (htrans : ∀ a b c, comp a b = true → comp b c = true → comp a c = true)
    (l : List α) : NDSorted comp (insFold comp l) :=
  foldl_insertLeft_sorted hirr htrans l [] (List.Pairwise.nil)

theorem filter_insertLeft_neg {p : α → Bool} {t : α} (ht : p t = false) :
    ∀ l : List α, (insertLeft comp t l).filter p = l.filter p := by
  intro l
  induction l with
  | nil => simp [insertLeft, ht]
  | cons x xs ih =>
    show (if comp t x then t :: x :: xs else x :: insertLeft comp t xs).filter p = _
    by_cases h : comp t x = true
    · rw [if_pos h]
      simp [List.filter_cons, ht]
    · rw [if_neg h]
      simp [List.filter_cons, ih]

theorem eqvB_pair_not_lt
    (hneg : ∀ a b c, comp a b = false → comp b c = false → comp a c = false)
    {a t z : α} (ht : eqvB comp a t = true) (hz : eqvB comp a z = true) :
    comp t z = false := by
  simp only [eqvB, Bool.and_eq_true, Bool.not_eq_true'] at ht hz
  exact hneg t a z ht.1 hz.2

theorem filter_insertLeft_pos
    (hneg : ∀ a b c, comp a b = false → comp b c = false → comp a c = false)
    {a t : α} (ht : eqvB comp a t = true) :
    ∀ {l : List α}, NDSorted comp l →
    (insertLeft comp t l).filter (eqvB comp a) = l.filter (eqvB comp a) ++ [t] := by
  intro l
  induction l with
  | nil => intro _; simp [insertLeft, ht]
  | cons x xs ih =>
    intro hsort
    rw [NDSorted, List.pairwise_cons] at hsort
    obtain ⟨hx, hxs⟩ := hsort
    show (if comp t x then t :: x :: xs else x :: insertLeft comp t xs).filter (eqvB comp a) = _
    by_cases h : comp t x = true
    · rw [if_pos h]
      have hnone : ∀ z ∈ x :: xs, eqvB comp a z = false := by
        intro z hz
        cases hez : eqvB comp a z with
        | false => rfl
        | true =>
          exfalso
          rcases List.mem_cons.mp hz with rfl | hz'
          · rw [eqvB_pair_not_lt hneg ht hez] at h
            exact Bool.noConfusion h
          · have h1 : comp t z = false := eqvB_pair_not_lt hneg ht hez
            have h2 : comp z x = false := hx z hz'
            rw [hneg t z x h1 h2] at h
            exact Bool.noConfusion h
      have hfe : (x :: xs).filter (eqvB comp a) = [] := by
        rw [List.filter_eq_nil_iff]
        intro z hz
        rw [hnone z hz]
        exact Bool.noConfusion
      rw [List.filter_cons_of_pos ht, hfe]
      rfl
    · rw [if_neg h]
      simp only [List.filter_cons, ih hxs]
      by_cases hax : eqvB comp a x = true
      · simp [hax]
      · simp [hax]

theorem filter_foldl_insertLeft
    (hirr : ∀ a, comp a a = false)
    (htrans : ∀ a b c, comp a b = true → comp b c = true → comp a c = true)
    (hneg : ∀ a b c, comp a b = false → comp b c = false → comp a c = false)
    {a : α} :
    ∀ (S acc : List α), NDSorted comp acc →
    (S.foldl (fun acc x => insertLeft comp x acc) acc).filter (eqvB comp a) =
      acc.filter (eqvB comp a) ++ S.filter (eqvB comp a) := by
  intro S
  induction S with
  | nil => intro acc _; simp
  | cons t S' ih =>
    intro acc hacc
    show (S'.foldl _ (insertLeft comp t acc)).filter (eqvB comp a) = _
    rw [ih (insertLeft comp t acc) (NDSorted_insertLeft hirr htrans hacc)]
    by_cases hto : eqvB comp a t = true
    · rw [filter_insertLeft_pos hneg hto hacc]
      simp [List.filter_cons, hto]
    · have hto' : eqvB comp a t = false := by
        cases hh : eqvB comp a t with
        | false => rfl
        | true => exact absurd hh hto
      rw [filter_insertLeft_neg hto']
      simp [List.filter_cons, hto']

/-- The ordered-insertion fold is stable: within each incomparability class
the elements appear in input order. -/
theorem insFold_stable
    (hirr : ∀ a, comp a a = false)
    (htrans : ∀ a b c, comp a b = true → comp b c = true → comp a c = true)
    (hneg : ∀ a b c, comp a b = false → comp b c = false → comp a c = false)
    (a : α) (l : List α) :
    (insFold comp l).filter (eqvB comp a) = l.filter (eqvB comp a) := by
  have := filter_foldl_insertLeft hirr htrans hneg (a := a) l [] (List.Pairwise.nil)
  simpa [insFold] using this

end GenericSort2

/-! ## `shaker_sort`

```cpp
template <std::random_access_iterator RandomAccessIterator, class Compare>
void shaker_sort(RandomAccessIterator first, RandomAccessIterator last,
                 Compare comp) {
  auto left_bound = first;
  auto right_bound = last - 1;
  bool no_swaps = true;

  while (left_bound <= right_bound) {
    for (auto i = left_bound; i < right_bound; ++i) {
      if (comp(*(i + 1), *i)) {
        std::iter_swap(i + 1, i);
        no_swaps = false;
      }
    }
    ++left_bound;
    if (no_swaps)
      break;

    for (auto i = right_bound; i >= left_bound; --i) {
      if (comp(*i, *(i - 1))) {
        std::iter_swap(i, i - 1);
      }
    }
    --right_bound;
    if (no_swaps)
      break;
  }
}
```

The forward pass (`R - L` iterations starting at index `L`) is `fwdPass`;
the backward pass (`R - L` iterations starting at index `R`, running down to
the incremented left bound `L+1`) is `bwdPass`; the `while` loop is
`shakerLoop` with fuel (`length` is enough iterations, since the window
`[L, R]` shrinks by two per iteration).  The `no_swaps` flag is set by the
forward pass only and never reset, exactly as in the source. -/

/-- Forward pass of `shaker_sort`: `k` iterations left, current index `i`;
the body compares positions `i+1`,`i` and swaps them (clearing the
`no_swaps` flag) when out of order. -/
def fwdPass {α : Type} [Inhabited α] (comp : α → α → Bool) :
    Nat → Nat → List α → Bool → List α × Bool
  | 0, _, l, ns => (l, ns)
  | k+1, i, l, ns =>
      if comp (l.getD (i+1) default) (l.getD i default)
      then fwdPass comp k (i+1) (iterSwap l i) false
      else fwdPass comp k (i+1) l ns

/-- Backward pass of `shaker_sort`: `k` iterations left, current index `i`;
the body compares positions `i`,`i-1` and swaps them when out of order. -/
def bwdPass {α : Type} [Inhabited α] (comp : α → α → Bool) :
    Nat → Nat → List α → List α
  | 0, _, l => l
  | k+1, i, l =>
      bwdPass comp k (i-1)
        (if comp (l.getD i default) (l.getD (i-1) default) then iterSwap l (i-1) else l)

/-- The `while` loop of `shaker_sort` over bounds `[L, R]`; both `break`
checks of the source are kept (the second one is dead code, since the flag
is false whenever it is reached). -/
def shakerLoop {α : Type} [Inhabited α] (comp : α → α → Bool) :
    Nat → Nat → Nat → Bool → List α → List α
  | 0, _, _, _, l => l
  | fuel+1, L, R, ns, l =>
      if L ≤ R then
        let p := fwdPass comp (R - L) L l ns
        if p.2 then p.1
        else
          let l₂ := bwdPass comp (R - L) R p.1
          if p.2 then l₂ else shakerLoop comp fuel (L+1) (R-1) p.2 l₂
      else l

/-- `shaker_sort(v.begin(), v.end(), comp)` on the list model.  On an empty
range the C++ loop guard `left_bound <= right_bound` compares `first` with
`first - 1` and fails, so the function is the identity; with `Nat` bounds
this case is split off explicitly. -/
def shaker_sort {α : Type} [Inhabited α] (comp : α → α → Bool) (l : List α) : List α :=
  if l.length = 0 then l
  else shakerLoop comp l.length 0 (l.length - 1) true l

/-- Reference model of one forward bubble pass over a whole window. -/
def bubbleFwd {α : Type} (comp : α → α → Bool) : List α → Bool → List α × Bool
  | x :: y :: t, ns =>
      if comp y x then
        let p := bubbleFwd comp (x :: t) false
        (y :: p.1, p.2)
      else
        let p := bubbleFwd comp (y :: t) ns
        (x :: p.1, p.2)
  | l, ns => (l, ns)

/-- Reference model of one backward bubble pass over a whole window (the
rightmost adjacent pair is compared first, the leftmost last). -/
def bubbleBwd {α : Type} (comp : α → α → Bool) : List α → List α
  | x :: y :: t =>
      match bubbleBwd comp (y :: t) with
      | z :: t' => if comp z x then z :: x :: t' else x :: z :: t'
      | [] => [x]
  | l => l

section ShakerBasic

variable {α : Type} [Inhabited α] {comp : α → α → Bool}

theorem bubbleFwd_perm : ∀ (l : List α) (ns : Bool), (bubbleFwd comp l ns).1.Perm l := by
  intro l ns
  induction l, ns using bubbleFwd.induct comp with
  | case1 x y t ns h ih =>
    simp only [bubbleFwd, if_pos h]
    exact (ih.cons y).trans (List.Perm.swap x y t)
  | case2 x y t ns h ih =>
    simp only [bubbleFwd, if_neg h]
    exact ih.cons x
  | case3 l ns h =>
    rcases l with _ | ⟨x, _ | ⟨y, t⟩⟩
    · simp [bubbleFwd]
    · simp [bubbleFwd]
    · exact absurd rfl (h x y t)

theorem bubbleFwd_snd : ∀ (l : List α) (ns : Bool), (bubbleFwd comp l ns).2 = true →
    ns = true ∧ (bubbleFwd comp l ns).1 = l ∧
      l.Chain' (fun a b => comp b a = false) := by
  intro l ns
  induction l, ns using bubbleFwd.induct comp with
  | case1 x y t ns h ih =>
    intro h2
    simp only [bubbleFwd, if_pos h] at h2
    exact absurd (ih h2).1 (by simp)
  | case2 x y t ns h ih =>
    intro h2
    simp only [bubbleFwd, if_neg h] at h2 ⊢
    obtain ⟨hns, hfix, hch⟩ := ih h2
    refine ⟨hns, by rw [hfix], ?_⟩
    rw [List.chain'_cons]
    exact ⟨Bool.not_eq_true _ ▸ (Bool.not_eq_true (comp y x)).mp h, hch⟩
  | case3 l ns h =>
    intro h2
    rcases l with _ | ⟨x, _ | ⟨y, t⟩⟩
    · simp only [bubbleFwd] at h2
      exact ⟨h2, by simp [bubbleFwd], by simp⟩
    · simp only [bubbleFwd] at h2
      exact ⟨h2, by simp [bubbleFwd], by simp⟩
    · exact absurd rfl (h x y t)

theorem bubbleFwd_max
    (hirr : ∀ a, comp a a = false)
    (htrans : ∀ a b c, comp a b = true → comp b c = true → comp a c = true)
    (hneg : ∀ a b c, comp a b = false → comp b c = false → comp a c = false) :
    ∀ (l : List α) (ns : Bool), l ≠ [] →
    ∃ M m, (bubbleFwd comp l ns).1 = M ++ [m] ∧ ∀ z ∈ l, comp m z = false := by
  intro l ns
  induction l, ns using bubbleFwd.induct comp with
  | case1 x y t ns h ih =>
    intro _
    obtain ⟨M, m, hMm, hmax⟩ := ih (by simp)
    refine ⟨y :: M, m, ?_, ?_⟩
    · simp only [bubbleFwd, if_pos h, hMm]
      rfl
    · intro z hz
      rcases List.mem_cons.mp hz with rfl | hz'
      · exact hmax z (List.mem_cons_self _ _)
      · rcases List.mem_cons.mp hz' with rfl | hz''
        · cases hmy : comp m z with
          | false => rfl
          | true =>
            have := htrans m z x hmy h
            rw [hmax x (List.mem_cons_self _ _)] at this
            exact Bool.noConfusion this
        · exact hmax z (List.mem_cons_of_mem x hz'')
  | case2 x y t ns h ih =>
    intro _
    obtain ⟨M, m, hMm, hmax⟩ := ih (by simp)
    refine ⟨x :: M, m, ?_, ?_⟩
    · simp only [bubbleFwd, if_neg h, hMm]
      rfl
    · intro z hz
      rcases List.mem_cons.mp hz with rfl | hz'
      · exact hneg m y z (hmax y (List.mem_cons_self _ _))
          (Bool.not_eq_true _ ▸ (Bool.not_eq_true (comp y z)).mp h)
      · exact hmax z hz'
  | case3 l ns h =>
    intro hne
    rcases l with _ | ⟨x, _ | ⟨y, t⟩⟩
    · exact absurd rfl hne
    · refine ⟨[], x, by simp [bubbleFwd], ?_⟩
      intro z hz
      rcases List.mem_singleton.mp hz with rfl
      exact hirr z
    · exact absurd rfl (h x y t)

theorem bubbleFwd_filter
    (hneg : ∀ a b c, comp a b = false → comp b c = false → comp a c = false) (a : α) :
    ∀ (l : List α) (ns : Bool),
    (bubbleFwd comp l ns).1.filter (eqvB comp a) = l.filter (eqvB comp a) := by
  intro l ns
  induction l, ns using bubbleFwd.induct comp with
  | case1 x y t ns h ih =>
    simp only [bubbleFwd, if_pos h]
    by_cases hy : eqvB comp a y = true
    · by_cases hx : eqvB comp a x = true
      · rw [eqvB_pair_not_lt hneg hy hx] at h
        exact Bool.noConfusion h
      · have hx' : eqvB comp a x = false := Bool.not_eq_true _ ▸ (Bool.not_eq_true _).mp hx
        simp [List.filter_cons, hy, hx', ih]
    · have hy' : eqvB comp a y = false := Bool.not_eq_true _ ▸ (Bool.not_eq_true _).mp hy
      simp [List.filter_cons, hy', ih]
  | case2 x y t ns h ih =>
    simp only [bubbleFwd]
    rw [if_neg h]
    simp [List.filter_cons, ih]
  | case3 l ns h =>
    rcases l with _ | ⟨x, _ | ⟨y, t⟩⟩
    · simp [bubbleFwd]
    · simp [bubbleFwd]
    · exact absurd rfl (h x y t)

theorem length_bubbleBwd : ∀ l : List α, (bubbleBwd comp l).length = l.length := by
  intro l
  induction l using bubbleBwd.induct comp with
  | case1 x y t z t' hb hc ih =>
    rw [hb] at ih
    simp only [bubbleBwd, hb, if_pos hc]
    simp only [List.length_cons] at ih ⊢
    omega
  | case2 x y t z t' hb hc ih =>
    rw [hb] at ih
    simp only [bubbleBwd, hb, if_neg hc]
    simp only [List.length_cons] at ih ⊢
    omega
  | case3 x y t hb ih =>
    rw [hb] at ih
    simp at ih
  | case4 l h =>
    rcases l with _ | ⟨x, _ | ⟨y, t⟩⟩
    · rfl
    · rfl
    · exact absurd rfl (h x y t)

theorem bubbleBwd_perm : ∀ l : List α, (bubbleBwd comp l).Perm l := by
  intro l
  induction l using bubbleBwd.induct comp with
  | case1 x y t z t' hb hc ih =>
    rw [hb] at ih
    simp only [bubbleBwd, hb, if_pos hc]
    exact (List.Perm.swap x z t').trans (ih.cons x)
  | case2 x y t z t' hb hc ih =>
    rw [hb] at ih
    simp only [bubbleBwd, hb, if_neg hc]
    exact ih.cons x
  | case3 x y t hb ih =>
    have : (bubbleBwd comp (y :: t)).length = (y :: t).length := length_bubbleBwd (y :: t)
    rw [hb] at this
    simp at this
  | case4 l h =>
    rcases l with _ | ⟨x, _ | ⟨y, t⟩⟩
    · exact List.Perm.refl _
    · exact List.Perm.refl _
    · exact absurd rfl (h x y t)

theorem bubbleBwd_min
    (hirr : ∀ a, comp a a = false)
    (htrans : ∀ a b c, comp a b = true → comp b c = true → comp a c = true)
    (hneg : ∀ a b c, comp a b = false → comp b c = false → comp a c = false) :
    ∀ l : List α, l ≠ [] →
    ∃ m M, bubbleBwd comp l = m :: M ∧ ∀ z ∈ l, comp z m = false := by
  intro l
  induction l using bubbleBwd.induct comp with
  | case1 x y t z t' hb hc ih =>
    intro _
    obtain ⟨m, M, hmM, hmin⟩ := ih (by simp)
    rw [hb] at hmM
    obtain ⟨rfl, rfl⟩ : z = m ∧ t' = M := by
      injection hmM with h1 h2
      exact ⟨h1, h2⟩
    simp only [bubbleBwd, hb, if_pos hc]
    refine ⟨z, x :: t', rfl, ?_⟩
    intro w hw
    rcases List.mem_cons.mp hw with rfl | hw'
    · exact comp_asymm hirr htrans hc
    · exact hmin w hw'
  | case2 x y t z t' hb hc ih =>
    intro _
    obtain ⟨m, M, hmM, hmin⟩ := ih (by simp)
    rw [hb] at hmM
    obtain ⟨rfl, rfl⟩ : z = m ∧ t' = M := by
      injection hmM with h1 h2
      exact ⟨h1, h2⟩
    simp only [bubbleBwd, hb, if_neg hc]
    refine ⟨x, z :: t', rfl, ?_⟩
    intro w hw
    rcases List.mem_cons.mp hw with rfl | hw'
    · exact hirr w
    · exact hneg w z x (hmin w hw')
        (Bool.not_eq_true _ ▸ (Bool.not_eq_true (comp z x)).mp hc)
  | case3 x y t hb ih =>
    intro _
    have : (bubbleBwd comp (y :: t)).length = (y :: t).length := length_bubbleBwd (y :: t)
    rw [hb] at this
    simp at this
  | case4 l h =>
    intro hne
    rcases l with _ | ⟨x, _ | ⟨y, t⟩⟩
    · exact absurd rfl hne
    · refine ⟨x, [], rfl, ?_⟩
      intro z hz
      rcases List.mem_singleton.mp hz with rfl
      exact hirr z
    · exact absurd rfl (h x y t)

theorem bubbleBwd_filter
    (hneg : ∀ a b c, comp a b = false → comp b c = false → comp a c = false) (a : α) :
    ∀ l : List α, (bubbleBwd comp l).filter (eqvB comp a) = l.filter (eqvB comp a) := by
  intro l
  induction l using bubbleBwd.induct comp with
  | case1 x y t z t' hb hc ih =>
    rw [hb] at ih
    simp only [bubbleBwd, hb, if_pos hc]
    by_cases hz : eqvB comp a z = true
    · by_cases hx : eqvB comp a x = true
      · rw [eqvB_pair_not_lt hneg hz hx] at hc
        exact Bool.noConfusion hc
      · have hx' : eqvB comp a x = false := Bool.not_eq_true _ ▸ (Bool.not_eq_true _).mp hx
        simp only [List.filter_cons, hz, hx', if_true, Bool.false_eq_true, if_false] at ih ⊢
        rw [← ih]
    · have hz' : eqvB comp a z = false := Bool.not_eq_true _ ▸ (Bool.not_eq_true _).mp hz
      simp only [List.filter_cons, hz', Bool.false_eq_true, if_false] at ih ⊢
      rw [← ih]
  | case2 x y t z t' hb hc ih =>
    rw [hb] at ih
    simp only [bubbleBwd, hb, if_neg hc]
    simp only [List.filter_cons] at ih ⊢
    rw [ih]
  | case3 x y t hb ih =>
    have : (bubbleBwd comp (y :: t)).length = (y :: t).length := length_bubbleBwd (y :: t)
    rw [hb] at this
    simp at this
  | case4 l h =>
    rcases l with _ | ⟨x, _ | ⟨y, t⟩⟩
    · rfl
    · rfl
    · exact absurd rfl (h x y t)

end ShakerBasic

section ShakerLoc

variable {α : Type} [Inhabited α] {comp : α → α → Bool}

theorem bubbleBwd_ne_nil {M : List α} (hM : M ≠ []) : bubbleBwd comp M ≠ [] := by
  intro h
  have : (bubbleBwd comp M).length = M.length := length_bubbleBwd M
  rw [h] at this
  exact hM (List.eq_nil_of_length_eq_zero this.symm)

theorem bubbleBwd_cons_of_ne_nil (x : α) {M : List α} {z : α} {t' : List α}
    (h : bubbleBwd comp M = z :: t') (hM : M ≠ []) :
    bubbleBwd comp (x :: M) = if comp z x then z :: x :: t' else x :: z :: t' := by
  rcases M with _ | ⟨y, t⟩
  · exact absurd rfl hM
  · simp only [bubbleBwd, h]

/-- Peeling the rightmost comparison off a backward pass. -/
theorem bubbleBwd_concat₂ : ∀ (V : List α) (v u : α),
    bubbleBwd comp ((V ++ [v]) ++ [u]) =
      if comp u v then bubbleBwd comp (V ++ [u]) ++ [v]
      else bubbleBwd comp (V ++ [v]) ++ [u] := by
  intro V
  induction V with
  | nil =>
    intro v u
    by_cases hc : comp u v = true
    · simp [bubbleBwd, hc]
    · simp [bubbleBwd, hc]
  | cons w V' ih =>
    intro v u
    have hinner : bubbleBwd comp ((V' ++ [v]) ++ [u]) =
        if comp u v then bubbleBwd comp (V' ++ [u]) ++ [v]
        else bubbleBwd comp (V' ++ [v]) ++ [u] := ih v u
    by_cases hc : comp u v = true
    · rw [if_pos hc] at hinner
      obtain ⟨z, t₀, hz⟩ : ∃ z t₀, bubbleBwd comp (V' ++ [u]) = z :: t₀ := by
        rcases hzz : bubbleBwd comp (V' ++ [u]) with _ | ⟨z, t₀⟩
        · exact absurd hzz (bubbleBwd_ne_nil (by simp))
        · exact ⟨z, t₀, rfl⟩
      rw [hz] at hinner
      have hL : bubbleBwd comp (((w :: V') ++ [v]) ++ [u]) =
          if comp z w then z :: w :: (t₀ ++ [v]) else w :: z :: (t₀ ++ [v]) := by
        have h1 : ((w :: V') ++ [v]) ++ [u] = w :: ((V' ++ [v]) ++ [u]) := by simp
        rw [h1, bubbleBwd_cons_of_ne_nil w (by rw [hinner]; rfl) (by simp)]
        rfl
      have hR : bubbleBwd comp ((w :: V') ++ [u]) ++ [v] =
          (if comp z w then z :: w :: t₀ else w :: z :: t₀) ++ [v] := by
        have h1 : (w :: V') ++ [u] = w :: (V' ++ [u]) := by simp
        rw [h1, bubbleBwd_cons_of_ne_nil w hz (by simp)]
      rw [if_pos hc, hL, hR]
      by_cases hzw : comp z w = true
      · rw [if_pos hzw, if_pos hzw]
        rfl
      · rw [if_neg hzw, if_neg hzw]
        rfl
    · rw [if_neg hc] at hinner
      obtain ⟨z, t₀, hz⟩ : ∃ z t₀, bubbleBwd comp (V' ++ [v]) = z :: t₀ := by
        rcases hzz : bubbleBwd comp (V' ++ [v]) with _ | ⟨z, t₀⟩
        · exact absurd hzz (bubbleBwd_ne_nil (by simp))
        · exact ⟨z, t₀, rfl⟩
      rw [hz] at hinner
      have hL : bubbleBwd comp (((w :: V') ++ [v]) ++ [u]) =
          if comp z w then z :: w :: (t₀ ++ [u]) else w :: z :: (t₀ ++ [u]) := by
        have h1 : ((w :: V') ++ [v]) ++ [u] = w :: ((V' ++ [v]) ++ [u]) := by simp
        rw [h1, bubbleBwd_cons_of_ne_nil w (by rw [hinner]; rfl) (by simp)]
        rfl
      have hR : bubbleBwd comp ((w :: V') ++ [v]) ++ [u] =
          (if comp z w then z :: w :: t₀ else w :: z :: t₀) ++ [u] := by
        have h1 : (w :: V') ++ [v] = w :: (V' ++ [v]) := by simp
        rw [h1, bubbleBwd_cons_of_ne_nil w hz (by simp)]
      rw [if_neg hc, hL, hR]
      by_cases hzw : comp z w = true
      · rw [if_pos hzw, if_pos hzw]
        rfl
      · rw [if_neg hzw, if_neg hzw]
        rfl

/-- The forward pass over exactly the window `W` (at offset `A.length`,
with `W.length - 1` iterations) is the structural bubble pass on `W`. -/
theorem fwdPass_loc : ∀ (k : Nat) (A W B : List α) (ns : Bool), W.length = k + 1 →
    fwdPass comp k A.length (A ++ W ++ B) ns =
      (A ++ (bubbleFwd comp W ns).1 ++ B, (bubbleFwd comp W ns).2) := by
  intro k
  induction k with
  | zero =>
    intro A W B ns h
    rcases W with _ | ⟨w, t⟩
    · simp at h
    · rcases t with _ | ⟨w2, t2⟩
      · simp [fwdPass, bubbleFwd]
      · simp at h
  | succ k ih =>
    intro A W B ns h
    rcases W with _ | ⟨x, _ | ⟨y, t⟩⟩
    · simp at h
    · simp at h
    · have ht : t.length = k := by simpa using h
      have hL : A ++ (x :: y :: t) ++ B = A ++ x :: y :: (t ++ B) := by simp
      have hgx : (A ++ x :: y :: (t ++ B)).getD A.length default = x :=
        getD_append_self A x (y :: (t ++ B)) default
      have hgy : (A ++ x :: y :: (t ++ B)).getD (A.length + 1) default = y := by
        have h1 : A ++ x :: y :: (t ++ B) = (A ++ [x]) ++ y :: (t ++ B) := by simp
        have h2 : (A ++ [x]).length = A.length + 1 := by simp
        rw [h1, ← h2, getD_append_self]
      show fwdPass comp (k+1) A.length (A ++ (x :: y :: t) ++ B) ns = _
      rw [hL]
      show (if comp ((A ++ x :: y :: (t ++ B)).getD (A.length + 1) default)
              ((A ++ x :: y :: (t ++ B)).getD A.length default) then
          fwdPass comp k (A.length + 1) (iterSwap (A ++ x :: y :: (t ++ B)) A.length) false
        else fwdPass comp k (A.length + 1) (A ++ x :: y :: (t ++ B)) ns) = _
      rw [hgx, hgy]
      by_cases hc : comp y x = true
      · rw [if_pos hc, iterSwap_append]
        have h3 : A ++ y :: x :: (t ++ B) = (A ++ [y]) ++ (x :: t) ++ B := by simp
        have h4 : (A ++ [y]).length = A.length + 1 := by simp
        rw [h3, ← h4, ih (A ++ [y]) (x :: t) B false (by simp [ht])]
        simp only [bubbleFwd, if_pos hc]
        simp
      · rw [if_neg hc]
        have h3 : A ++ x :: y :: (t ++ B) = A ++ (y :: t).cons x ++ B := by simp
        have h5 : A ++ x :: y :: (t ++ B) = (A ++ [x]) ++ (y :: t) ++ B := by simp
        have h4 : (A ++ [x]).length = A.length + 1 := by simp
        rw [h5, ← h4, ih (A ++ [x]) (y :: t) B ns (by simp [ht])]
        simp only [bubbleFwd, if_neg hc]
        simp

/-- The backward pass over exactly the window `W` (ending at offset
`A.length`, with `W.length - 1` iterations starting at the window's last
index) is the structural backward bubble pass on `W`. -/
theorem bwdPass_loc : ∀ (k : Nat) (A W B : List α), W.length = k + 1 →
    bwdPass comp k (A.length + k) (A ++ W ++ B) = A ++ bubbleBwd comp W ++ B := by
  intro k
  induction k with
  | zero =>
    intro A W B h
    rcases W with _ | ⟨w, t⟩
    · simp at h
    · rcases t with _ | ⟨w2, t2⟩
      · simp [bwdPass, bubbleBwd]
      · simp at h
  | succ k ih =>
    intro A W B h
    obtain ⟨W₁, u, hW₁⟩ : ∃ W₁ u, W = W₁ ++ [u] := by
      rcases W.eq_nil_or_concat with rfl | ⟨W₁, u, hW⟩
      · simp at h
      · exact ⟨W₁, u, by simpa [List.concat_eq_append] using hW⟩
    obtain ⟨V, v, hV⟩ : ∃ V v, W₁ = V ++ [v] := by
      rcases W₁.eq_nil_or_concat with rfl | ⟨V, v, hW⟩
      · rw [hW₁] at h
        simp at h
      · exact ⟨V, v, by simpa [List.concat_eq_append] using hW⟩
    subst hV
    subst hW₁
    have hVk : V.length = k := by
      simp only [List.length_append, List.length_singleton] at h
      omega
    have hu : (A ++ ((V ++ [v]) ++ [u]) ++ B).getD (A.length + (k + 1)) default = u := by
      have h1 : A ++ ((V ++ [v]) ++ [u]) ++ B = (A ++ V ++ [v]) ++ (u :: B) := by simp
      have h2 : (A ++ V ++ [v]).length = A.length + (k + 1) := by simp [hVk]
      rw [h1, ← h2, getD_append_self]
    have hv : (A ++ ((V ++ [v]) ++ [u]) ++ B).getD (A.length + (k + 1) - 1) default = v := by
      have h1 : A ++ ((V ++ [v]) ++ [u]) ++ B = (A ++ V) ++ (v :: (u :: B)) := by simp
      have h2 : (A ++ V).length = A.length + (k + 1) - 1 := by simp [hVk]
      rw [h1, ← h2, getD_append_self]
    show bwdPass comp (k+1) (A.length + (k+1)) (A ++ ((V ++ [v]) ++ [u]) ++ B) = _
    show bwdPass comp k (A.length + (k+1) - 1)
        (if comp ((A ++ ((V ++ [v]) ++ [u]) ++ B).getD (A.length + (k+1)) default)
              ((A ++ ((V ++ [v]) ++ [u]) ++ B).getD (A.length + (k+1) - 1) default) then
          iterSwap (A ++ ((V ++ [v]) ++ [u]) ++ B) (A.length + (k+1) - 1)
        else A ++ ((V ++ [v]) ++ [u]) ++ B) = _
    rw [hu, hv]
    have hidx : A.length + (k + 1) - 1 = A.length + k := by omega
    by_cases hc : comp u v = true
    · rw [if_pos hc]
      have h1 : A ++ ((V ++ [v]) ++ [u]) ++ B = (A ++ V) ++ v :: u :: B := by simp
      have h2 : (A ++ V).length = A.length + k := by simp [hVk]
      rw [hidx, h1, ← h2, iterSwap_append]
      have h3 : (A ++ V) ++ u :: v :: B = A ++ (V ++ [u]) ++ (v :: B) := by simp
      rw [h3, h2, ih A (V ++ [u]) (v :: B) (by simp [hVk])]
      rw [bubbleBwd_concat₂, if_pos hc]
      simp
    · rw [if_neg hc, hidx]
      have h3 : A ++ ((V ++ [v]) ++ [u]) ++ B = A ++ (V ++ [v]) ++ (u :: B) := by simp
      rw [h3, ih A (V ++ [v]) (u :: B) (by simp [hVk])]
      rw [bubbleBwd_concat₂, if_neg hc]
      simp

end ShakerLoc

section ShakerMain

variable {α : Type} [Inhabited α] {comp : α → α → Bool}

theorem iterSwap_filter
    (hneg : ∀ a b c, comp a b = false → comp b c = false → comp a c = false) (a : α) :
    ∀ (l : List α) (i : Nat),
    comp (l.getD (i+1) default) (l.getD i default) = true →
    (iterSwap l i).filter (eqvB comp a) = l.filter (eqvB comp a) := by
  intro l
  induction l with
  | nil => intro i _; rw [iterSwap_nil]
  | cons x t ih =>
    intro i hcond
    cases i with
    | zero =>
      cases t with
      | nil => rfl
      | cons y t' =>
        simp only [List.getD_cons_succ, List.getD_cons_zero] at hcond
        show (y :: x :: t').filter (eqvB comp a) = (x :: y :: t').filter (eqvB comp a)
        by_cases hy : eqvB comp a y = true
        · by_cases hx : eqvB comp a x = true
          · rw [eqvB_pair_not_lt hneg hy hx] at hcond
            exact Bool.noConfusion hcond
          · have hx' : eqvB comp a x = false := Bool.not_eq_true _ ▸ (Bool.not_eq_true _).mp hx
            simp [List.filter_cons, hy, hx']
        · have hy' : eqvB comp a y = false := Bool.not_eq_true _ ▸ (Bool.not_eq_true _).mp hy
          simp [List.filter_cons, hy']
    | succ j =>
      simp only [List.getD_cons_succ] at hcond
      simp only [iterSwap]
      simp [List.filter_cons, ih j hcond]

theorem fwdPass_perm : ∀ (k i : Nat) (l : List α) (ns : Bool),
    (fwdPass comp k i l ns).1.Perm l := by
  intro k
  induction k with
  | zero => intro i l ns; exact List.Perm.refl _
  | succ k ih =>
    intro i l ns
    show (if comp (l.getD (i+1) default) (l.getD i default) then
        fwdPass comp k (i+1) (iterSwap l i) false
      else fwdPass comp k (i+1) l ns).1.Perm l
    by_cases hc : comp (l.getD (i+1) default) (l.getD i default) = true
    · rw [if_pos hc]
      exact (ih (i+1) (iterSwap l i) false).trans (iterSwap_perm l i)
    · rw [if_neg hc]
      exact ih (i+1) l ns

theorem fwdPass_filter
    (hneg : ∀ a b c, comp a b = false → comp b c = false → comp a c = false) (a : α) :
    ∀ (k i : Nat) (l : List α) (ns : Bool),
    (fwdPass comp k i l ns).1.filter (eqvB comp a) = l.filter (eqvB comp a) := by
  intro k
  induction k with
  | zero => intro i l ns; rfl
  | succ k ih =>
    intro i l ns
    show (if comp (l.getD (i+1) default) (l.getD i default) then
        fwdPass comp k (i+1) (iterSwap l i) false
      else fwdPass comp k (i+1) l ns).1.filter (eqvB comp a) = _
    by_cases hc : comp (l.getD (i+1) default) (l.getD i default) = true
    · rw [if_pos hc, ih (i+1) (iterSwap l i) false, iterSwap_filter hneg a l i hc]
    · rw [if_neg hc, ih (i+1) l ns]

theorem bwdPass_perm : ∀ (k i : Nat) (l : List α), (bwdPass comp k i l).Perm l := by
  intro k
  induction k with
  | zero => intro i l; exact List.Perm.refl _
  | succ k ih =>
    intro i l
    show (bwdPass comp k (i-1)
        (if comp (l.getD i default) (l.getD (i-1) default) then iterSwap l (i-1) else l)).Perm l
    by_cases hc : comp (l.getD i default) (l.getD (i-1) default) = true
    · rw [if_pos hc]
      exact (ih (i-1) (iterSwap l (i-1))).trans (iterSwap_perm l (i-1))
    · rw [if_neg hc]
      exact ih (i-1) l

theorem bwdPass_filter
    (hirr : ∀ a, comp a a = false)
    (hneg : ∀ a b c, comp a b = false → comp b c = false → comp a c = false) (a : α) :
    ∀ (k i : Nat) (l : List α),
    (bwdPass comp k i l).filter (eqvB comp a) = l.filter (eqvB comp a) := by
  intro k
  induction k with
  | zero => intro i l; rfl
  | succ k ih =>
    intro i l
    show (bwdPass comp k (i-1)
        (if comp (l.getD i default) (l.getD (i-1) default) then
          iterSwap l (i-1) else l)).filter (eqvB comp a) = _
    cases i with
    | zero =>
      rw [if_neg (by rw [hirr]; exact Bool.noConfusion)]
      exact ih 0 l
    | succ j =>
      by_cases hc : comp (l.getD (j+1) default) (l.getD j default) = true
      · rw [if_pos (by simpa using hc)]
        have : (j + 1 : Nat) - 1 = j := rfl
        rw [this, ih j (iterSwap l j), iterSwap_filter hneg a l j hc]
      · rw [if_neg (by simpa using hc)]
        exact ih j l

theorem shakerLoop_perm : ∀ (fuel L R : Nat) (ns : Bool) (l : List α),
    (shakerLoop comp fuel L R ns l).Perm l := by
  intro fuel
  induction fuel with
  | zero => intro L R ns l; exact List.Perm.refl _
  | succ fuel ih =>
    intro L R ns l
    show (if L ≤ R then _ else l).Perm l
    by_cases hLR : L ≤ R
    · rw [if_pos hLR]
      have hp1 : (fwdPass comp (R - L) L l ns).1.Perm l := fwdPass_perm (R - L) L l ns
      by_cases hns : (fwdPass comp (R - L) L l ns).2 = true
      · simp only [hns, if_true]
        exact hp1
      · simp only [hns, Bool.not_eq_true _ ▸ (Bool.not_eq_true _).mp hns,
          Bool.false_eq_true, if_false]
        exact ((ih (L+1) (R-1) _ _).trans
          ((bwdPass_perm (R - L) R _).trans hp1))
    · rw [if_neg hLR]

theorem shakerLoop_filter
    (hirr : ∀ a, comp a a = false)
    (hneg : ∀ a b c, comp a b = false → comp b c = false → comp a c = false) (a : α) :
    ∀ (fuel L R : Nat) (ns : Bool) (l : List α),
    (shakerLoop comp fuel L R ns l).filter (eqvB comp a) = l.filter (eqvB comp a) := by
  intro fuel
  induction fuel with
  | zero => intro L R ns l; rfl
  | succ fuel ih =>
    intro L R ns l
    show (if L ≤ R then _ else l).filter (eqvB comp a) = _
    by_cases hLR : L ≤ R
    · rw [if_pos hLR]
      have hp1 := fwdPass_filter hneg a (R - L) L l ns
      by_cases hns : (fwdPass comp (R - L) L l ns).2 = true
      · simp only [hns, if_true]
        exact hp1
      · simp only [hns, Bool.not_eq_true _ ▸ (Bool.not_eq_true _).mp hns,
          Bool.false_eq_true, if_false]
        rw [ih (L+1) (R-1) _ _, bwdPass_filter hirr hneg a (R - L) R _, hp1]
    · rw [if_neg hLR]

end ShakerMain

section ShakerInv

variable {α : Type} [Inhabited α] {comp : α → α → Bool}

theorem NDSorted_append3 {Lp W Rp : List α}
    (hsL : NDSorted comp Lp) (hsW : NDSorted comp W) (hsR : NDSorted comp Rp)
    (hlow : ∀ x ∈ Lp, ∀ y ∈ W ++ Rp, comp y x = false)
    (hhigh : ∀ x ∈ Lp ++ W, ∀ y ∈ Rp, comp y x = false) :
    NDSorted comp (Lp ++ W ++ Rp) := by
  rw [NDSorted, List.append_assoc, List.pairwise_append]
  refine ⟨hsL, ?_, ?_⟩
  · rw [List.pairwise_append]
    refine ⟨hsW, hsR, ?_⟩
    intro a ha b hb
    exact hhigh a (List.mem_append_right Lp ha) b hb
  · intro a ha b hb
    exact hlow a ha b hb

/-- Main invariant of the `shaker_sort` loop: with the settled prefix `Lp`,
current window `W` and settled suffix `Rp`, enough fuel, and every settled
element on the correct side of everything to its right/left, the loop
returns a sorted list. -/
theorem shakerLoop_sorted_inv
    (hirr : ∀ a, comp a a = false)
    (htrans : ∀ a b c, comp a b = true → comp b c = true → comp a c = true)
    (hneg : ∀ a b c, comp a b = false → comp b c = false → comp a c = false) :
    ∀ (fuel L R : Nat) (ns : Bool) (Lp W Rp : List α),
    Lp.length = L →
    W.length = R + 1 - L →
    R + 1 - L ≤ 2 * fuel →
    NDSorted comp Lp →
    NDSorted comp Rp →
    (∀ x ∈ Lp, ∀ y ∈ W ++ Rp, comp y x = false) →
    (∀ x ∈ Lp ++ W, ∀ y ∈ Rp, comp y x = false) →
    NDSorted comp (shakerLoop comp fuel L R ns (Lp ++ W ++ Rp)) := by
  intro fuel
  induction fuel with
  | zero =>
    intro L R ns Lp W Rp hLp hW hfuel hsL hsR hlow hhigh
    have hW0 : W = [] := List.eq_nil_of_length_eq_zero (by omega)
    subst hW0
    exact NDSorted_append3 hsL List.Pairwise.nil hsR hlow hhigh
  | succ fuel ih =>
    intro L R ns Lp W Rp hLp hW hfuel hsL hsR hlow hhigh
    by_cases hLR : L ≤ R
    · have hWlen : W.length = (R - L) + 1 := by omega
      have hWne : W ≠ [] := by
        intro h
        rw [h] at hWlen
        simp at hWlen
      have hfwd : fwdPass comp (R - L) L (Lp ++ W ++ Rp) ns =
          (Lp ++ (bubbleFwd comp W ns).1 ++ Rp, (bubbleFwd comp W ns).2) := by
        have h0 : fwdPass comp (R - L) Lp.length (Lp ++ W ++ Rp) ns =
            (Lp ++ (bubbleFwd comp W ns).1 ++ Rp, (bubbleFwd comp W ns).2) :=
          fwdPass_loc (R - L) Lp W Rp ns hWlen
        rw [hLp] at h0
        exact h0
      show NDSorted comp (shakerLoop comp (fuel+1) L R ns (Lp ++ W ++ Rp))
      simp only [shakerLoop, if_pos hLR, hfwd]
      by_cases hns : (bubbleFwd comp W ns).2 = true
      · simp only [hns, if_true]
        obtain ⟨-, hfix, hch⟩ := bubbleFwd_snd W ns hns
        rw [hfix]
        haveI : IsTrans α (fun a b => comp b a = false) :=
          ⟨fun a b c hab hbc => hneg c b a hbc hab⟩
        have hsW : NDSorted comp W := List.chain'_iff_pairwise.mp hch
        exact NDSorted_append3 hsL hsW hsR hlow hhigh
      · have hns' : (bubbleFwd comp W ns).2 = false :=
          Bool.not_eq_true _ ▸ (Bool.not_eq_true _).mp hns
        simp only [hns', Bool.false_eq_true, if_false]
        -- backward pass localization
        have hW1perm : (bubbleFwd comp W ns).1.Perm W := bubbleFwd_perm W ns
        have hW1len : (bubbleFwd comp W ns).1.length = (R - L) + 1 := by
          rw [hW1perm.length_eq, hWlen]
        have hbwd : bwdPass comp (R - L) R (Lp ++ (bubbleFwd comp W ns).1 ++ Rp) =
            Lp ++ bubbleBwd comp (bubbleFwd comp W ns).1 ++ Rp := by
          have h0 : bwdPass comp (R - L) (Lp.length + (R - L))
              (Lp ++ (bubbleFwd comp W ns).1 ++ Rp) =
              Lp ++ bubbleBwd comp (bubbleFwd comp W ns).1 ++ Rp :=
            bwdPass_loc (R - L) Lp (bubbleFwd comp W ns).1 Rp hW1len
          rw [hLp] at h0
          have hidx : L + (R - L) = R := by omega
          rw [hidx] at h0
          exact h0
        rw [hbwd]
        -- decompose the forward-pass result as M ++ [mx] with mx a maximum of W
        obtain ⟨M, mx, hMmx, hmax⟩ := bubbleFwd_max hirr htrans hneg W ns hWne
        have hmxW : mx ∈ W := by
          rw [← hW1perm.mem_iff, hMmx]
          exact List.mem_append_right M (List.mem_singleton_self mx)
        have hMsub : ∀ z ∈ M, z ∈ W := by
          intro z hz
          rw [← hW1perm.mem_iff, hMmx]
          exact List.mem_append_left [mx] hz
        by_cases hM : M = []
        · -- window of size one: both passes leave it unchanged
          subst hM
          have hw2 : bubbleBwd comp (bubbleFwd comp W ns).1 = [mx] := by
            rw [hMmx]
            rfl
          rw [hw2]
          have hlist : Lp ++ [mx] ++ Rp = (Lp ++ [mx]) ++ [] ++ Rp := by simp
          rw [hlist]
          have hR1 : (R : Nat) = L := by
            have : W.length = 1 := by
              rw [← hW1perm.length_eq, hMmx]
              rfl
            omega
          refine ih (L+1) (R-1) false (Lp ++ [mx]) [] Rp (by simp [hLp]) (by simp; omega)
            (by omega) ?_ hsR ?_ ?_
          · rw [NDSorted, List.pairwise_append]
            refine ⟨hsL, by simp [NDSorted], ?_⟩
            intro a ha b hb
            rcases List.mem_singleton.mp hb with rfl
            exact hlow a ha b (List.mem_append_left Rp hmxW)
          · intro x hx y hy
            simp only [List.nil_append] at hy
            rcases List.mem_append.mp hx with hx' | hx'
            · exact hlow x hx' y (List.mem_append_right W hy)
            · rcases List.mem_singleton.mp hx' with rfl
              exact hhigh x (List.mem_append_right Lp hmxW) y hy
          · intro x hx y hy
            simp only [List.append_nil] at hx
            rcases List.mem_append.mp hx with hx' | hx'
            · exact hhigh x (List.mem_append_left W hx') y hy
            · rcases List.mem_singleton.mp hx' with rfl
              exact hhigh x (List.mem_append_right Lp hmxW) y hy
        · -- window of size at least two
          obtain ⟨V, v, hV⟩ : ∃ V v, M = V ++ [v] := by
            rcases M.eq_nil_or_concat with rfl | ⟨V, v, hMc⟩
            · exact absurd rfl hM
            · exact ⟨V, v, by simpa [List.concat_eq_append] using hMc⟩
          have hvW : v ∈ W := hMsub v (by rw [hV]; exact List.mem_append_right V (by simp))
          have hw2 : bubbleBwd comp (bubbleFwd comp W ns).1 =
              bubbleBwd comp M ++ [mx] := by
            rw [hMmx, hV, bubbleBwd_concat₂, if_neg (by rw [hmax v hvW]; exact Bool.noConfusion)]
          obtain ⟨mn, Mid, hmnMid, hmin⟩ := bubbleBwd_min hirr htrans hneg M hM
          have hmnM : mn ∈ M := by
            have hpb : (bubbleBwd comp M).Perm M := bubbleBwd_perm M
            rw [← hpb.mem_iff, hmnMid]
            exact List.mem_cons_self mn Mid
          have hmnW : mn ∈ W := hMsub mn hmnM
          have hMidsub : ∀ z ∈ Mid, z ∈ W := by
            intro z hz
            refine hMsub z ?_
            have hpb : (bubbleBwd comp M).Perm M := bubbleBwd_perm M
            rw [← hpb.mem_iff, hmnMid]
            exact List.mem_cons_of_mem mn hz
          have hminW : ∀ z ∈ W, comp z mn = false := by
            intro z hz
            have hz1 : z ∈ M ++ [mx] := by
              rw [← hMmx]
              rw [hW1perm.mem_iff]
              exact hz
            rcases List.mem_append.mp hz1 with hz' | hz'
            · exact hmin z hz'
            · rcases List.mem_singleton.mp hz' with rfl
              exact hmax mn hmnW
          rw [hw2, hmnMid]
          have hWlen2 : 2 ≤ W.length := by
            have h1 : M.length + 1 = W.length := by
              rw [← hW1perm.length_eq, hMmx]
              simp
            have h2 : 1 ≤ M.length := List.length_pos.mpr hM
            omega
          have hMidlen : Mid.length = (R - 1) + 1 - (L + 1) := by
            have h1 : M.length + 1 = W.length := by
              rw [← hW1perm.length_eq, hMmx]
              simp
            have h2 : Mid.length + 1 = M.length := by
              have : (bubbleBwd comp M).length = M.length := length_bubbleBwd M
              rw [hmnMid] at this
              simpa using this
            omega
          have hlist : Lp ++ (mn :: Mid ++ [mx]) ++ Rp =
              (Lp ++ [mn]) ++ Mid ++ (mx :: Rp) := by simp
          rw [hlist]
          refine ih (L+1) (R-1) false (Lp ++ [mn]) Mid (mx :: Rp)
            (by simp [hLp]) hMidlen (by omega) ?_ ?_ ?_ ?_
          · rw [NDSorted, List.pairwise_append]
            refine ⟨hsL, by simp [NDSorted], ?_⟩
            intro a ha b hb
            rcases List.mem_singleton.mp hb with rfl
            exact hlow a ha b (List.mem_append_left Rp hmnW)
          · rw [NDSorted, List.pairwise_cons]
            refine ⟨?_, hsR⟩
            intro y hy
            exact hhigh mx (List.mem_append_right Lp hmxW) y hy
          · intro x hx y hy
            rcases List.mem_append.mp hx with hx' | hx'
            · rcases List.mem_append.mp hy with hy' | hy'
              · exact hlow x hx' y (List.mem_append_left Rp (hMidsub y hy'))
              · rcases List.mem_cons.mp hy' with rfl | hy''
                · exact hlow x hx' y (List.mem_append_left Rp hmxW)
                · exact hlow x hx' y (List.mem_append_right W hy'')
            · rcases List.mem_singleton.mp hx' with rfl
              rcases List.mem_append.mp hy with hy' | hy'
              · exact hminW y (hMidsub y hy')
              · rcases List.mem_cons.mp hy' with rfl | hy''
                · exact hmax x hmnW
                · exact hhigh x (List.mem_append_right Lp hmnW) y hy''
          · intro x hx y hy
            rcases List.mem_cons.mp hy with rfl | hy'
            · rcases List.mem_append.mp hx with hx' | hx'
              · rcases List.mem_append.mp hx' with hx'' | hx''
                · exact hlow x hx'' y (List.mem_append_left Rp hmxW)
                · rcases List.mem_singleton.mp hx'' with rfl
                  exact hmax x hmnW
              · exact hmax x (hMidsub x hx')
            · rcases List.mem_append.mp hx with hx' | hx'
              · rcases List.mem_append.mp hx' with hx'' | hx''
                · exact hhigh x (List.mem_append_left W hx'') y hy'
                · rcases List.mem_singleton.mp hx'' with rfl
                  exact hhigh x (List.mem_append_right Lp hmnW) y hy'
              · exact hhigh x (List.mem_append_right Lp (hMidsub x hx')) y hy'
    · have hW0 : W = [] := List.eq_nil_of_length_eq_zero (by omega)
      subst hW0
      show NDSorted comp (shakerLoop comp (fuel+1) L R ns (Lp ++ [] ++ Rp))
      simp only [shakerLoop, if_neg hLR]
      exact NDSorted_append3 hsL List.Pairwise.nil hsR hlow hhigh

end ShakerInv

section SortTop

variable {α : Type} [Inhabited α] {comp : α → α → Bool}

theorem insertion_sort_sorted
    (hirr : ∀ a, comp a a = false)
    (htrans : ∀ a b c, comp a b = true → comp b c = true → comp a c = true)
    (hneg : ∀ a b c, comp a b = false → comp b c = false → comp a c = false)
    (l : List α) : NDSorted comp (insertion_sort comp l) := by
  rw [insertion_sort_eq_insFold hirr htrans hneg]
  exact NDSorted_insFold hirr htrans l

theorem insertion_sort_perm
    (hirr : ∀ a, comp a a = false)
    (htrans : ∀ a b c, comp a b = true → comp b c = true → comp a c = true)
    (hneg : ∀ a b c, comp a b = false → comp b c = false → comp a c = false)
    (l : List α) : (insertion_sort comp l).Perm l := by
  rw [insertion_sort_eq_insFold hirr htrans hneg]
  exact insFold_perm l

theorem insertion_sort_stable
    (hirr : ∀ a, comp a a = false)
    (htrans : ∀ a b c, comp a b = true → comp b c = true → comp a c = true)
    (hneg : ∀ a b c, comp a b = false → comp b c = false → comp a c = false)
    (a : α) (l : List α) :
    (insertion_sort comp l).filter (eqvB comp a) = l.filter (eqvB comp a) := by
  rw [insertion_sort_eq_insFold hirr htrans hneg]
  exact insFold_stable hirr htrans hneg a l

theorem shaker_sort_sorted
    (hirr : ∀ a, comp a a = false)
    (htrans : ∀ a b c, comp a b = true → comp b c = true → comp a c = true)
    (hneg : ∀ a b c, comp a b = false → comp b c = false → comp a c = false)
    (l : List α) : NDSorted comp (shaker_sort comp l) := by
  unfold shaker_sort
  by_cases h : l.length = 0
  · rw [if_pos h]
    have : l = [] := List.eq_nil_of_length_eq_zero h
    subst this
    exact List.Pairwise.nil
  · rw [if_neg h]
    have h1 : 1 ≤ l.length := Nat.one_le_iff_ne_zero.mpr h
    have := shakerLoop_sorted_inv hirr htrans hneg l.length 0 (l.length - 1) true
      [] l [] rfl (by omega) (by omega) List.Pairwise.nil List.Pairwise.nil
      (by intro x hx; exact absurd hx (List.not_mem_nil x))
      (by intro x _ y hy; exact absurd hy (List.not_mem_nil y))
    simpa using this

theorem shaker_sort_perm (l : List α) : (shaker_sort comp l).Perm l := by
  unfold shaker_sort
  by_cases h : l.length = 0
  · rw [if_pos h]
  · rw [if_neg h]
    exact shakerLoop_perm l.length 0 (l.length - 1) true l

theorem shaker_sort_stable
    (hirr : ∀ a, comp a a = false)
    (hneg : ∀ a b c, comp a b = false → comp b c = false → comp a c = false)
    (a : α) (l : List α) :
    (shaker_sort comp l).filter (eqvB comp a) = l.filter (eqvB comp a) := by
  unfold shaker_sort
  by_cases h : l.length = 0
  · rw [if_pos h]
  · rw [if_neg h]
    exact shakerLoop_filter hirr hneg a l.length 0 (l.length - 1) true l

end SortTop

/-! ## `merge` and `merge_sort`

```cpp
template <std::random_access_iterator RandomAccessIterator, class Compare>
void merge(RandomAccessIterator l_first, RandomAccessIterator l_last,
           RandomAccessIterator r_first, RandomAccessIterator r_last,
           Compare comp) {
  std::vector result(l_first, l_last);
  result.clear();

  auto i = l_first, j = r_first;
  while (i < l_last and j < r_last) {
    if (comp(*i, *j)) {
      result.push_back(*i);
      ++i;
    } else {
      result.push_back(*j);
      ++j;
    }
  }
  for (; i < l_last; ++i) { result.push_back(*i); }
  for (; j < r_last; ++j) { result.push_back(*j); }
  std::copy(result.begin(), result.end(), l_first);
}

template <std::random_access_iterator RandomAccessIterator, class Compare>
void merge_sort(RandomAccessIterator first, RandomAccessIterator last,
                Compare comp) {
  if (first + 1 == last) {
    return;
  }
  long mid = std::distance(first, last) / 2;
  merge_sort(first, first + mid, comp);
  merge_sort(first + mid, last, comp);
  return merge(first, first + mid, first + mid, last, comp);
}
```

`merge` is modelled on the two adjacent sub-ranges `[l_first, l_last)` and
`[r_first, r_last)` as two lists; note that on a tie (`comp(*i, *j)` false)
the element of the **right** sub-range is taken.  `merge_sort`'s recursion
has no base case for an empty range (`first + 1 == last` is false when
`first == last`, and both recursive calls then receive the same empty
range), so it is modelled with explicit fuel, `none` meaning the recursion
does not terminate; fuel `length` suffices for every non-empty range
(`merge_sort_cons_eq_some`), while on the empty range the result is `none`
for every fuel (`mergeSortF_nil_eq_none`). -/

/-- The merge primitive of the source on the two adjacent sub-ranges. -/
def merge {α : Type} (comp : α → α → Bool) : List α → List α → List α
  | [], r => r
  | l, [] => l
  | a :: l, b :: r =>
      if comp a b then a :: merge comp l (b :: r) else b :: merge comp (a :: l) r
termination_by l r => l.length + r.length

/-- `merge_sort` recursion with explicit fuel (split point `length / 2`,
base case only for ranges of length exactly one). -/
def mergeSortF {α : Type} (comp : α → α → Bool) : Nat → List α → Option (List α)
  | 0, _ => none
  | fuel+1, l =>
      if l.length = 1 then some l
      else
        match mergeSortF comp fuel (l.take (l.length / 2)),
            mergeSortF comp fuel (l.drop (l.length / 2)) with
        | some a, some b => some (merge comp a b)
        | _, _ => none

/-- `merge_sort(v.begin(), v.end(), comp)` on the list model: fuel `length`
is enough for the recursion depth on any non-empty range, and on the empty
range no fuel suffices (the C++ recursion diverges). -/
def merge_sort {α : Type} (comp : α → α → Bool) (l : List α) : Option (List α) :=
  mergeSortF comp l.length l

section MergeProofs

variable {α : Type} [Inhabited α] {comp : α → α → Bool}

theorem merge_perm : ∀ l r : List α, (merge comp l r).Perm (l ++ r) := by
  intro l r
  induction l, r using merge.induct comp with
  | case1 r => simp [merge]
  | case2 l h =>
    rcases l with _ | ⟨a, l⟩
    · simp [merge]
    · simp [merge]
  | case3 a l b r h ih =>
    simp only [merge, if_pos h]
    exact ih.cons a
  | case4 a l b r h ih =>
    simp only [merge, if_neg h]
    refine (ih.cons b).trans ?_
    exact List.perm_middle.symm

theorem NDSorted_merge
    (hirr : ∀ a, comp a a = false)
    (htrans : ∀ a b c, comp a b = true → comp b c = true → comp a c = true)
    (hneg : ∀ a b c, comp a b = false → comp b c = false → comp a c = false) :
    ∀ l r : List α, NDSorted comp l → NDSorted comp r →
    NDSorted comp (merge comp l r) := by
  intro l r
  induction l, r using merge.induct comp with
  | case1 r =>
    intro _ hr
    simpa [merge] using hr
  | case2 l h =>
    intro hl _
    rcases l with _ | ⟨a, l⟩
    · simpa [merge]
    · simpa [merge] using hl
  | case3 a l b r h ih =>
    intro hl hr
    rw [NDSorted, List.pairwise_cons] at hl
    obtain ⟨ha, hl'⟩ := hl
    simp only [merge, if_pos h]
    rw [NDSorted, List.pairwise_cons]
    constructor
    · intro z hz
      have hz' : z ∈ l ++ (b :: r) := ((merge_perm l (b :: r)).mem_iff).mp hz
      rcases List.mem_append.mp hz' with hz'' | hz''
      · exact ha z hz''
      · rcases List.mem_cons.mp hz'' with rfl | hz₃
        · exact comp_asymm hirr htrans h
        · -- z ∈ r, b before z in sorted r, and comp a b true
          rw [NDSorted, List.pairwise_cons] at hr
          have hzb : comp z b = false := hr.1 z hz₃
          cases hza : comp z a with
          | false => rfl
          | true =>
            have := htrans z a b hza h
            rw [hzb] at this
            exact Bool.noConfusion this
    · exact ih hl' hr
  | case4 a l b r h ih =>
    intro hl hr
    rw [NDSorted, List.pairwise_cons] at hr
    obtain ⟨hb, hr'⟩ := hr
    simp only [merge, if_neg h]
    rw [NDSorted, List.pairwise_cons]
    constructor
    · intro z hz
      have hz' : z ∈ (a :: l) ++ r := ((merge_perm (a :: l) r).mem_iff).mp hz
      rcases List.mem_append.mp hz' with hz'' | hz''
      · rcases List.mem_cons.mp hz'' with rfl | hz₃
        · exact Bool.not_eq_true _ ▸ (Bool.not_eq_true (comp z b)).mp h
        · rw [NDSorted, List.pairwise_cons] at hl
          have hza : comp z a = false := hl.1 z hz₃
          exact hneg z a b hza (Bool.not_eq_true _ ▸ (Bool.not_eq_true (comp a b)).mp h)
      · exact hb z hz''
    · exact ih hl hr'

theorem mergeSortF_nil_eq_none : ∀ fuel : Nat, mergeSortF comp fuel ([] : List α) = none := by
  intro fuel
  induction fuel with
  | zero => rfl
  | succ fuel ih =>
    simp [mergeSortF, ih]

theorem mergeSortF_perm :
    ∀ (fuel : Nat) (l r : List α), mergeSortF comp fuel l = some r → r.Perm l := by
  intro fuel
  induction fuel with
  | zero => intro l r h; exact Option.noConfusion h
  | succ fuel ih =>
    intro l r h
    by_cases h1 : l.length = 1
    · rw [show mergeSortF comp (fuel+1) l = if l.length = 1 then some l else _ from rfl,
        if_pos h1] at h
      rw [Option.some.injEq] at h
      subst h
      exact List.Perm.refl _
    · rw [show mergeSortF comp (fuel+1) l = if l.length = 1 then some l else
          (match mergeSortF comp fuel (l.take (l.length / 2)),
              mergeSortF comp fuel (l.drop (l.length / 2)) with
            | some a, some b => some (merge comp a b)
            | _, _ => none) from rfl, if_neg h1] at h
      rcases ha : mergeSortF comp fuel (l.take (l.length / 2)) with _ | a
      · rw [ha] at h
        exact Option.noConfusion h
      · rcases hb : mergeSortF comp fuel (l.drop (l.length / 2)) with _ | b
        · rw [ha, hb] at h
          exact Option.noConfusion h
        · rw [ha, hb] at h
          rw [Option.some.injEq] at h
          subst h
          refine (merge_perm a b).trans ?_
          refine ((ih _ a ha).append (ih _ b hb)).trans ?_
          rw [List.take_append_drop]

theorem NDSorted_of_length_le_one {l : List α} (h : l.length ≤ 1) : NDSorted comp l := by
  rcases l with _ | ⟨x, _ | ⟨y, t⟩⟩
  · exact List.Pairwise.nil
  · simp [NDSorted]
  · simp at h

theorem mergeSortF_spec
    (hirr : ∀ a, comp a a = false)
    (htrans : ∀ a b c, comp a b = true → comp b c = true → comp a c = true)
    (hneg : ∀ a b c, comp a b = false → comp b c = false → comp a c = false) :
    ∀ (fuel : Nat) (l : List α), 1 ≤ l.length → l.length ≤ fuel →
    ∃ r, mergeSortF comp fuel l = some r ∧ r.Perm l ∧ NDSorted comp r := by
  intro fuel
  induction fuel with
  | zero => intro l h1 h2; omega
  | succ fuel ih =>
    intro l h1 h2
    by_cases hl1 : l.length = 1
    · refine ⟨l, ?_, List.Perm.refl _, NDSorted_of_length_le_one (by omega)⟩
      rw [show mergeSortF comp (fuel+1) l = if l.length = 1 then some l else _ from rfl,
        if_pos hl1]
    · have hlen2 : 2 ≤ l.length := by omega
      have hmid1 : 1 ≤ l.length / 2 := by omega
      have htake : (l.take (l.length / 2)).length = l.length / 2 := by
        rw [List.length_take]
        omega
      have hdrop : (l.drop (l.length / 2)).length = l.length - l.length / 2 := by
        rw [List.length_drop]
      obtain ⟨a, hA, hpA, hsA⟩ := ih (l.take (l.length / 2))
        (by omega) (by omega)
      obtain ⟨b, hB, hpB, hsB⟩ := ih (l.drop (l.length / 2))
        (by omega) (by omega)
      refine ⟨merge comp a b, ?_, ?_, NDSorted_merge hirr htrans hneg a b hsA hsB⟩
      · rw [show mergeSortF comp (fuel+1) l = if l.length = 1 then some l else
            (match mergeSortF comp fuel (l.take (l.length / 2)),
                mergeSortF comp fuel (l.drop (l.length / 2)) with
              | some a, some b => some (merge comp a b)
              | _, _ => none) from rfl, if_neg hl1, hA, hB]
      · refine (merge_perm a b).trans ?_
        refine (hpA.append hpB).trans ?_
        rw [List.take_append_drop]

theorem merge_sort_cons_eq_some
    (hirr : ∀ a, comp a a = false)
    (htrans : ∀ a b c, comp a b = true → comp b c = true → comp a c = true)
    (hneg : ∀ a b c, comp a b = false → comp b c = false → comp a c = false)
    (x : α) (t : List α) :
    ∃ r, merge_sort comp (x :: t) = some r ∧ r.Perm (x :: t) ∧ NDSorted comp r :=
  mergeSortF_spec hirr htrans hneg (x :: t).length (x :: t) (by simp) (le_refl _)

end MergeProofs

/-- Modelled from the spec: the baseline sort is "the environment's built-in
general-purpose comparison sort (not re-implemented; treated as a black-box
reference with equivalent contract — ascending order per comparator, no
stability guarantee)" (§4.2, `std::sort` in the source).  `std::sort` is not
code of this repository, so it is modelled as a comparison sort satisfying
exactly that contract: the ordered-insertion fold, which sorts ascending
per the comparator (`NDSorted_insFold`, `insFold_perm`). -/
def stdSort {α : Type} (comp : α → α → Bool) (l : List α) : List α := insFold comp l

/-! ## CSV input and output

```cpp
std::vector<std::string> split(const std::string &str, char del = ' ') {
  std::vector<std::string> out;
  std::istringstream is(str);
  std::string t;
  while (std::getline(is, t, del)) {
    out.push_back(t);
  }
  return out;
}

std::vector<Soldier> read_csv(const std::string &filename) {
  std::vector<Soldier> data;
  data.reserve(150000);
  std::ifstream ifile;
  std::string line;
  ifile.open(filename);
  if (!ifile.is_open()) {
    std::cerr << "read_csv: Couldn't open file\n";
  }
  while (std::getline(ifile, line)) {
    std::vector<std::string> fields_v = split(line, ',');
    Soldier obj(fields_v[0], fields_v[1], fields_v[2], std::stoi(fields_v[3]));
    data.emplace_back(obj);
  }
  return data;
}

void write_csv(std::string filename, const std::vector<Soldier> &data) {
  std::ofstream ofile(filename);
  ...
  for (const auto &v : data) {
    ofile << v.full_name << ',' << v.job << ',' << v.unit << ',' << v.salary << '\n';
  }
}
```

`split` is `std::getline`-token splitting: the delimiter-separated pieces
of the input, except that `std::getline` fails (extracting nothing) at end
of input, so a final empty piece yields no token — an empty input yields no
tokens and a trailing delimiter contributes no extra token
(`split("a,b,", ',') = ["a", "b"]`, `split(",", ',') = [""]`).
`fields_v[k]` is `std::vector::operator[]`, which does not bound-check: on
a line with fewer than four tokens the access is undefined behaviour,
modelled as the distinguished outcome `ParseErr.oob`.  `std::stoi` skips
leading whitespace, accepts an optional sign and then a non-empty digit
string, ignores any trailing junk, throws `std::invalid_argument` when
there is no digit and `std::out_of_range` when the digit string's value
does not fit in `int` (outside `[-2147483648, 2147483647]`); the program
catches neither exception, so both are modelled as the single abort
`ParseErr.stoiExc`.  A file that cannot be opened produces the
`"read_csv: Couldn't open file"` message on `stderr` (the `Bool` below) and
then the read loop reads nothing, returning an empty collection — the
function continues normally. -/

/-- Splitting of a character list at a delimiter into its (possibly empty)
pieces. -/
def splitChars (del : Char) : List Char → List (List Char)
  | [] => [[]]
  | c :: rest =>
      if c = del then [] :: splitChars del rest
      else
        match splitChars del rest with
        | t :: ts => (c :: t) :: ts
        | [] => [[c]]

/-- `std::getline` drops the final piece when it is empty: at that point the
stream is at end of input and `getline` extracts nothing, so the loop exits
without pushing a token. -/
def getlineTokens : List (List Char) → List (List Char)
  | [] => []
  | [t] => if t.isEmpty then [] else [t]
  | t :: rest => t :: getlineTokens rest

/-- `split(str, del)` of the source: the `std::getline` tokens of the
string. -/
def split (str : String) (del : Char) : List String :=
  (getlineTokens (splitChars del str.data)).map (fun cs => String.mk cs)

/-- The whitespace characters skipped by `std::stoi` (`isspace` in the "C"
locale). -/
def isCppSpace (c : Char) : Bool :=
  c = ' ' || c = '\t' || c = '\n' || c = '\x0b' || c = '\x0c' || c = '\r'

/-- `std::stoi`: `none` models the exceptions — `std::invalid_argument`
when there are no digits after optional whitespace and sign, and
`std::out_of_range` when the signed value of the digit string does not fit
in `int` (outside `[-2147483648, 2147483647]`); otherwise the value of the
longest digit prefix, trailing junk ignored. -/
def stoiOpt (s : String) : Option Int :=
  let ds : List Char → Option Int := fun cs =>
    let digits := cs.takeWhile Char.isDigit
    if digits.isEmpty then none
    else some (digits.foldl (fun acc c => 10 * acc + ((c.toNat : Int) - 48)) 0)
  let v : Option Int :=
    match s.data.dropWhile isCppSpace with
    | '-' :: rest => (ds rest).map (fun n => -n)
    | '+' :: rest => ds rest
    | rest => ds rest
  match v with
  | none => none
  | some n => if n < -2147483648 ∨ 2147483647 < n then none else some n

/-- How a record parse can abort: `oob` is the out-of-bounds
`std::vector::operator[]` access on a line with fewer than four tokens
(undefined behaviour in C++, modelled as a distinguished abort), `stoiExc`
is an uncaught exception of `std::stoi` (`std::invalid_argument` or
`std::out_of_range`). -/
inductive ParseErr where
  | oob
  | stoiExc
deriving DecidableEq, Repr

instance {ε σ : Type} [DecidableEq ε] [DecidableEq σ] : DecidableEq (Except ε σ) := fun x y =>
  match x, y with
  | Except.ok a, Except.ok b =>
      if h : a = b then isTrue (by rw [h])
      else isFalse (by intro hh; cases hh; exact h rfl)
  | Except.error e, Except.error f =>
      if h : e = f then isTrue (by rw [h])
      else isFalse (by intro hh; cases hh; exact h rfl)
  | Except.ok _, Except.error _ => isFalse (by intro hh; cases hh)
  | Except.error _, Except.ok _ => isFalse (by intro hh; cases hh)

/-- The body of `read_csv`'s loop for one line's fields:
`Soldier(fields_v[0], fields_v[1], fields_v[2], std::stoi(fields_v[3]))`. -/
def parseFields (fs : List String) : Except ParseErr Soldier :=
  match fs.get? 0, fs.get? 1, fs.get? 2, fs.get? 3 with
  | some f0, some f1, some f2, some f3 =>
      match stoiOpt f3 with
      | some n => Except.ok ⟨f0, f1, f2, n⟩
      | none => Except.error ParseErr.stoiExc
  | _, _, _, _ => Except.error ParseErr.oob

/-- Parse one CSV line: split on `','` and build the record. -/
def parseLine (line : String) : Except ParseErr Soldier :=
  parseFields (split line ',')

/-- Parse the lines of a file in order; the first abort propagates. -/
def readLines : List String → Except ParseErr (List Soldier)
  | [] => Except.ok []
  | ln :: rest =>
      match parseLine ln with
      | Except.error e => Except.error e
      | Except.ok s =>
          match readLines rest with
          | Except.error e => Except.error e
          | Except.ok ds => Except.ok (s :: ds)

/-- `read_csv(filename)`: the environment maps the file name to `none` when
the file cannot be opened (then the error message is printed — the `Bool`
component — and the empty collection is returned) or to its lines.  A parse
abort inside the loop propagates. -/
def read_csv (file : Option (List String)) : Except ParseErr (List Soldier × Bool) :=
  match file with
  | none => Except.ok ([], true)
  | some lines =>
      match readLines lines with
      | Except.error e => Except.error e
      | Except.ok ds => Except.ok (ds, false)

/-- One output line of `write_csv`: `full_name,job,unit,salary`. -/
def soldierLine (v : Soldier) : String :=
  v.full_name ++ "," ++ v.job ++ "," ++ v.unit ++ "," ++ toString v.salary

/-- `write_csv(filename, data)`: the lines written to the file. -/
def write_csv (data : List Soldier) : List String := data.map soldierLine

/-! ## The benchmark harness `get_time`

```cpp
std::pair<std::vector<double>, std::vector<double>> get_time(int j, std::string algo) {
  std::vector<double> x, y;
  for (int i{1}; i <= j; ++i) {
    auto data = read_csv("./data/in/dataset_" + std::to_string(i) + ".csv");
    const auto start{std::chrono::steady_clock::now()};

    if (algo == "insertion_sort")
      insertion_sort(data.begin(), data.end(), std::less<Soldier>());
    else if (algo == "shaker_sort")
      shaker_sort(data.begin(), data.end(), std::less<Soldier>());
    else if (algo == "merge_sort")
      merge_sort(data.begin(), data.end(), std::less<Soldier>());
    else if (algo == "std::sort")
      std::sort(data.begin(), data.end(), std::less<Soldier>());

    const auto finish{std::chrono::steady_clock::now()};
    const std::chrono::duration<double> elapsed_seconds{finish - start};
    x.push_back(data.size());
    y.push_back(elapsed_seconds.count());

    write_csv("data/out/insertion/dataset_" + std::to_string(i) + ".csv", data);

    std::cout << algo + ": dataset_n=" << i << " size=" << data.size()
              << " time=" << y.at(i - 1) << "\n";
  }
  return {x, y};
}
```

Note that the output path is the literal `"data/out/insertion/..."` for
every algorithm selector, and that an unrecognized selector falls through
all four `else if` branches without sorting and without any error. -/

/-- Dispatch on the algorithm-name string, exactly the `if`/`else if` chain
of `get_time` (the comparator is `std::less<Soldier>`, i.e. `sLT`); no final
`else`, so an unrecognized name sorts nothing.  `merge_sort`'s possible
divergence (empty data) surfaces as `none`. -/
def applyAlgo (algo : String) (data : List Soldier) : Option (List Soldier) :=
  if algo = "insertion_sort" then some (insertion_sort sLT data)
  else if algo = "shaker_sort" then some (shaker_sort sLT data)
  else if algo = "merge_sort" then merge_sort sLT data
  else if algo = "std::sort" then some (stdSort sLT data)
  else some data

/-- Observable result of a `get_time` run: the returned pair `(x, y)`
(sizes and elapsed tick differences), plus the files written (name and
lines) and the number of `read_csv` error messages printed to `stderr`. -/
structure GtOut where
  x : List Nat
  y : List Int
  writes : List (String × List String)
  msgs : Nat
deriving DecidableEq, Repr

/-- How a `get_time` run can fail to return: a propagating parse abort, or
the divergence of `merge_sort` on an empty collection. -/
inductive RunStop where
  | readErr (e : ParseErr)
  | diverge
deriving DecidableEq, Repr

/-- `"./data/in/dataset_" + std::to_string(i) + ".csv"`. -/
def inPath (i : Nat) : String := "./data/in/dataset_" ++ toString i ++ ".csv"

/-- `"data/out/insertion/dataset_" + std::to_string(i) + ".csv"` — the
output path used for every algorithm. -/
def outPath (i : Nat) : String := "data/out/insertion/dataset_" ++ toString i ++ ".csv"

/-- The `for (int i{1}; i <= j; ++i)` loop of `get_time`: current index `i`,
`rem` iterations remaining; `clock n` is the value of the n-th
`steady_clock::now()` call (two per iteration). -/
def getTimeLoop (fs : String → Option (List String)) (clock : Nat → Int) (algo : String) :
    Nat → Nat → Except RunStop GtOut
  | _, 0 => Except.ok ⟨[], [], [], 0⟩
  | i, rem+1 =>
      match read_csv (fs (inPath i)) with
      | Except.error e => Except.error (RunStop.readErr e)
      | Except.ok (recs, msg) =>
          match applyAlgo algo recs with
          | none => Except.error RunStop.diverge
          | some data =>
              let elapsed := clock (2*(i-1)+1) - clock (2*(i-1))
              match getTimeLoop fs clock algo (i+1) rem with
              | Except.error e => Except.error e
              | Except.ok rest =>
                  Except.ok ⟨data.length :: rest.x, elapsed :: rest.y,
                    (outPath i, write_csv data) :: rest.writes,
                    (if msg then 1 else 0) + rest.msgs⟩

/-- `get_time(j, algo)` on the model: iterate the loop for `i = 1..j`. -/
def get_time (fs : String → Option (List String)) (clock : Nat → Int)
    (j : Nat) (algo : String) : Except RunStop GtOut :=
  getTimeLoop fs clock algo 1 j

/-- Number of records loaded for dataset index `i` (0 when the file is
missing, as `read_csv` then returns the empty collection). -/
def loadSize (fs : String → Option (List String)) (i : Nat) : Nat :=
  match read_csv (fs (inPath i)) with
  | Except.ok (recs, _) => recs.length
  | Except.error _ => 0

/-! ### Sanity checks of the embeddings on concrete inputs -/

example : insertion_sort (fun a b : Nat => decide (a < b)) [4, 5, 1, 3, 2] =
    [1, 2, 3, 4, 5] := by decide

example : shaker_sort (fun a b : Nat => decide (a < b)) [5, 4, 1, 3, 2] =
    [1, 2, 3, 4, 5] := by decide

example : shaker_sort (fun a b : Nat => decide (a < b)) [1, 2, 3] = [1, 2, 3] := by decide

example : merge_sort (fun a b : Nat => decide (a < b)) [3, 1, 2] = some [1, 2, 3] := by
  simp [merge_sort, mergeSortF, merge]

example : merge_sort (fun a b : Nat => decide (a < b)) ([] : List Nat) = none := by
  simp [merge_sort, mergeSortF]

example : split "a,b,c" ',' = ["a", "b", "c"] := by decide

example : split "" ',' = [] := by decide

example : split "a,b," ',' = ["a", "b"] := by decide

example : split "," ',' = [""] := by decide

example : split "a,,b" ',' = ["a", "", "b"] := by decide

example : stoiOpt "12abc" = some 12 := by decide

example : stoiOpt "abc" = none := by decide

example : stoiOpt "-5" = some (-5) := by decide

example : stoiOpt " 42" = some 42 := by decide

example : stoiOpt "2147483647" = some 2147483647 := by decide

example : stoiOpt "2147483648" = none := by decide

example : stoiOpt "-2147483648" = some (-2147483648) := by decide

example : parseLine "a,b,c,12" = Except.ok ⟨"a", "b", "c", 12⟩ := by decide

example : parseLine "a,b,c" = Except.error ParseErr.oob := by decide

example : sLT ⟨"x", "j", "U1", 5⟩ ⟨"a", "j", "U2", 1⟩ = true := by decide

example : sLT ⟨"n", "j1", "u", 5⟩ ⟨"n", "j2", "u", 5⟩ = false := by decide

example :
    get_time (fun _ => some ["a,b,c,1"]) (fun n => (n : Int)) 1 "insertion_sort" =
      Except.ok ⟨[1], [1], [("data/out/insertion/dataset_1.csv", ["a,b,c,1"])], 0⟩ := by
  decide

/-! ## Harness lemmas -/

theorem sLT_trans' : ∀ a b c : Soldier, sLT a b = true → sLT b c = true → sLT a c = true :=
  fun _ _ _ h1 h2 => sLT_trans h1 h2

theorem sLT_negtrans' : ∀ a b c : Soldier, sLT a b = false → sLT b c = false → sLT a c = false :=
  fun _ _ _ h1 h2 => sLT_negtrans h1 h2

/-- Every branch of the algorithm dispatch returns a permutation of its
input, hence a collection of the same size. -/
theorem applyAlgo_length {algo : String} {recs data : List Soldier}
    (h : applyAlgo algo recs = some data) : data.length = recs.length := by
  unfold applyAlgo at h
  by_cases h1 : algo = "insertion_sort"
  · rw [if_pos h1, Option.some.injEq] at h
    subst h
    exact (insertion_sort_perm sLT_irrefl sLT_trans' sLT_negtrans' recs).length_eq
  · rw [if_neg h1] at h
    by_cases h2 : algo = "shaker_sort"
    · rw [if_pos h2, Option.some.injEq] at h
      subst h
      exact (shaker_sort_perm recs).length_eq
    · rw [if_neg h2] at h
      by_cases h3 : algo = "merge_sort"
      · rw [if_pos h3] at h
        exact (mergeSortF_perm recs.length recs data h).length_eq
      · rw [if_neg h3] at h
        by_cases h4 : algo = "std::sort"
        · rw [if_pos h4, Option.some.injEq] at h
          subst h
          exact (insFold_perm recs).length_eq
        · rw [if_neg h4, Option.some.injEq] at h
          subst h
          rfl

theorem range_map_shift {β : Type} (f : Nat → β) (rem i : Nat) :
    (List.range (rem+1)).map (fun t => f (i + t)) =
      f i :: (List.range rem).map (fun t => f ((i+1) + t)) := by
  rw [List.range_succ_eq_map, List.map_cons, List.map_map]
  refine congrArg₂ List.cons (congrArg f (by omega)) ?_
  refine List.map_congr_left ?_
  intro t _
  show f (i + (t + 1)) = f ((i + 1) + t)
  exact congrArg f (by omega)

/-- Shape of a successful `get_time` loop run: `j` index-aligned samples,
each size being the loaded collection's size, each elapsed tick difference
non-negative when the clock is monotone. -/
theorem getTimeLoop_ok {fs : String → Option (List String)} {clock : Nat → Int}
    {algo : String} (hmono : Monotone clock) :
    ∀ (rem i : Nat) (r : GtOut), getTimeLoop fs clock algo i rem = Except.ok r →
    r.x.length = rem ∧ r.y.length = rem ∧
    (∀ t, t < rem → r.x.getD t 0 = loadSize fs (i + t)) ∧
    (∀ v ∈ r.y, 0 ≤ v) := by
  intro rem
  induction rem with
  | zero =>
    intro i r h
    rw [show getTimeLoop fs clock algo i 0 = Except.ok ⟨[], [], [], 0⟩ from rfl] at h
    cases h
    refine ⟨rfl, rfl, ?_, ?_⟩
    · intro t ht
      omega
    · intro v hv
      exact absurd hv (List.not_mem_nil v)
  | succ rem ih =>
    intro i r h
    cases hread : read_csv (fs (inPath i)) with
    | error e =>
      simp only [getTimeLoop, hread] at h
      exact Except.noConfusion h
    | ok p =>
      obtain ⟨recs, msg⟩ := p
      simp only [getTimeLoop, hread] at h
      cases happ : applyAlgo algo recs with
      | none =>
        rw [happ] at h
        simp at h
      | some data =>
        rw [happ] at h
        cases hrest : getTimeLoop fs clock algo (i+1) rem with
        | error e =>
          rw [hrest] at h
          simp at h
        | ok rest =>
          rw [hrest] at h
          rw [Except.ok.injEq] at h
          subst h
          obtain ⟨h1, h2, h3, h4⟩ := ih (i+1) rest hrest
          refine ⟨by simp [h1], by simp [h2], ?_, ?_⟩
          · intro t ht
            cases t with
            | zero =>
              show (data.length :: rest.x).getD 0 0 = loadSize fs (i + 0)
              rw [List.getD_cons_zero, applyAlgo_length happ]
              simp [loadSize, hread]
            | succ t =>
              show (data.length :: rest.x).getD (t+1) 0 = loadSize fs (i + (t+1))
              rw [List.getD_cons_succ]
              have := h3 t (by omega)
              rw [this]
              exact congrArg (loadSize fs) (by omega)
          · intro v hv
            rcases List.mem_cons.mp hv with rfl | hv'
            · have hle : clock (2*(i-1)) ≤ clock (2*(i-1)+1) := hmono (by omega)
              omega
            · exact h4 v hv'

/-- Destinations of the files written by a successful `get_time` loop run:
always `data/out/insertion/dataset_<index>.csv`, whatever the algorithm. -/
theorem getTimeLoop_writes {fs : String → Option (List String)} {clock : Nat → Int}
    {algo : String} :
    ∀ (rem i : Nat) (r : GtOut), getTimeLoop fs clock algo i rem = Except.ok r →
    r.writes.map Prod.fst = (List.range rem).map (fun t => outPath (i + t)) := by
  intro rem
  induction rem with
  | zero =>
    intro i r h
    rw [show getTimeLoop fs clock algo i 0 = Except.ok ⟨[], [], [], 0⟩ from rfl] at h
    cases h
    rfl
  | succ rem ih =>
    intro i r h
    cases hread : read_csv (fs (inPath i)) with
    | error e =>
      simp only [getTimeLoop, hread] at h
      exact Except.noConfusion h
    | ok p =>
      obtain ⟨recs, msg⟩ := p
      simp only [getTimeLoop, hread] at h
      cases happ : applyAlgo algo recs with
      | none =>
        rw [happ] at h
        simp at h
      | some data =>
        rw [happ] at h
        cases hrest : getTimeLoop fs clock algo (i+1) rem with
        | error e =>
          rw [hrest] at h
          simp at h
        | ok rest =>
          rw [hrest] at h
          rw [Except.ok.injEq] at h
          subst h
          show (outPath i, write_csv data).fst ::
              rest.writes.map Prod.fst = _
          rw [ih (i+1) rest hrest, range_map_shift (fun t => outPath t) rem i]

/-- The records loaded for dataset index `i` (empty when the file is
missing). -/
def loadRecs (fs : String → Option (List String)) (i : Nat) : List Soldier :=
  match read_csv (fs (inPath i)) with
  | Except.ok p => p.1
  | Except.error _ => []

/-- Every dispatch branch except `merge_sort`'s returns: `insertion_sort`,
`shaker_sort` and `std::sort` are total, and an unrecognized selector sorts
nothing. -/
theorem applyAlgo_total {algo : String} (h : algo ≠ "merge_sort") (recs : List Soldier) :
    ∃ out, applyAlgo algo recs = some out := by
  unfold applyAlgo
  by_cases h1 : algo = "insertion_sort"
  · rw [if_pos h1]
    exact ⟨_, rfl⟩
  · rw [if_neg h1]
    by_cases h2 : algo = "shaker_sort"
    · rw [if_pos h2]
      exact ⟨_, rfl⟩
    · rw [if_neg h2, if_neg h]
      by_cases h4 : algo = "std::sort"
      · rw [if_pos h4]
        exact ⟨_, rfl⟩
      · rw [if_neg h4]
        exact ⟨_, rfl⟩

/-- With any selector other than `merge_sort`, the loop completes whenever
every `read_csv` call returns (readable files, and missing files too — they
just yield the empty collection): full-length series come back, and a
missing file at index `i+t` contributes a size-0 sample and an empty output
file at position `t`, with no per-index failure. -/
theorem getTimeLoop_noDiverge {fs : String → Option (List String)} {clock : Nat → Int}
    {algo : String} (halgo : algo ≠ "merge_sort") :
    ∀ (rem i : Nat),
    (∀ k, i ≤ k → k < i + rem → ∃ p, read_csv (fs (inPath k)) = Except.ok p) →
    ∃ r, getTimeLoop fs clock algo i rem = Except.ok r ∧
      r.x.length = rem ∧ r.y.length = rem ∧
      (∀ t, t < rem → fs (inPath (i+t)) = none →
        r.x.getD t 0 = 0 ∧ r.writes.getD t ("", []) = (outPath (i+t), [])) := by
  intro rem
  induction rem with
  | zero =>
    intro i _
    exact ⟨⟨[], [], [], 0⟩, rfl, rfl, rfl, fun t ht => absurd ht (by omega)⟩
  | succ rem ih =>
    intro i hreads
    obtain ⟨⟨recs, msg⟩, hread⟩ := hreads i (le_refl i) (by omega)
    obtain ⟨out, happ⟩ := applyAlgo_total halgo recs
    obtain ⟨rest, hrest, hx, hy, hmiss⟩ := ih (i+1)
      (fun k hk1 hk2 => hreads k (by omega) (by omega))
    refine ⟨⟨out.length :: rest.x,
      (clock (2*(i-1)+1) - clock (2*(i-1))) :: rest.y,
      (outPath i, write_csv out) :: rest.writes,
      (if msg then 1 else 0) + rest.msgs⟩, ?_, by simp [hx], by simp [hy], ?_⟩
    · simp only [getTimeLoop, hread, happ, hrest]
    · intro t ht hnone
      cases t with
      | zero =>
        rw [show i + 0 = i from rfl] at hnone
        rw [hnone] at hread
        have h' : Except.ok (([] : List Soldier), true) = Except.ok (recs, msg) := hread
        injection h' with h''
        have hrecs : recs = [] := (congrArg Prod.fst h'').symm
        have hout : out = [] := by
          have h3 := applyAlgo_length happ
          rw [hrecs] at h3
          exact List.eq_nil_of_length_eq_zero h3
        subst hout
        exact ⟨rfl, rfl⟩
      | succ t' =>
        rw [show i + (t'+1) = (i+1) + t' from by omega] at hnone
        obtain ⟨ha, hb⟩ := hmiss t' (by omega) hnone
        refine ⟨ha, ?_⟩
        show rest.writes.getD t' ("", []) = (outPath (i + (t'+1)), [])
        rw [hb]
        have : (i+1) + t' = i + (t'+1) := by omega
        rw [this]

/-- With an unrecognized algorithm selector and readable datasets, the loop
raises no error: it writes each loaded collection unsorted and returns
full-length series. -/
theorem getTimeLoop_unknown {fs : String → Option (List String)} {clock : Nat → Int}
    {algo : String}
    (h1 : algo ≠ "insertion_sort") (h2 : algo ≠ "shaker_sort")
    (h3 : algo ≠ "merge_sort") (h4 : algo ≠ "std::sort") :
    ∀ (rem i : Nat),
    (∀ k, i ≤ k → k < i + rem → ∃ p, read_csv (fs (inPath k)) = Except.ok p) →
    ∃ r, getTimeLoop fs clock algo i rem = Except.ok r ∧
      r.x.length = rem ∧ r.y.length = rem ∧
      r.writes = (List.range rem).map
        (fun t => (outPath (i+t), write_csv (loadRecs fs (i+t)))) := by
  intro rem
  induction rem with
  | zero =>
    intro i _
    exact ⟨⟨[], [], [], 0⟩, rfl, rfl, rfl, rfl⟩
  | succ rem ih =>
    intro i hreads
    obtain ⟨⟨recs, msg⟩, hread⟩ := hreads i (le_refl i) (by omega)
    have happ : applyAlgo algo recs = some recs := by
      unfold applyAlgo
      rw [if_neg h1, if_neg h2, if_neg h3, if_neg h4]
    obtain ⟨rest, hrest, hx, hy, hw⟩ := ih (i+1)
      (fun k hk1 hk2 => hreads k (by omega) (by omega))
    refine ⟨⟨recs.length :: rest.x,
      (clock (2*(i-1)+1) - clock (2*(i-1))) :: rest.y,
      (outPath i, write_csv recs) :: rest.writes,
      (if msg then 1 else 0) + rest.msgs⟩, ?_, by simp [hx], by simp [hy], ?_⟩
    · simp only [getTimeLoop, hread, happ, hrest]
    · rw [hw, range_map_shift (fun k => (outPath k, write_csv (loadRecs fs k))) rem i]
      have : loadRecs fs i = recs := by
        simp [loadRecs, hread]
      rw [this]

/-! ## The claims -/

/-- C1: for every finite input sequence of records, `insertion_sort`,
`shaker_sort` and the `std::sort` baseline produce a non-decreasing
permutation of the input under the `Soldier` ordering; `merge_sort` does so
for every non-empty input, but on the empty sequence its recursion never
returns (no fuel reaches a base case), so the claim fails there: the code
has no base case for an empty range. -/
theorem claim_C1_sorted_permutation :
    (∀ l : List Soldier, NDSorted sLT (insertion_sort sLT l) ∧ (insertion_sort sLT l).Perm l)
    ∧ (∀ l : List Soldier, NDSorted sLT (shaker_sort sLT l) ∧ (shaker_sort sLT l).Perm l)
    ∧ (∀ l : List Soldier, NDSorted sLT (stdSort sLT l) ∧ (stdSort sLT l).Perm l)
    ∧ (∀ (x : Soldier) (t : List Soldier), ∃ r, merge_sort sLT (x :: t) = some r ∧
        NDSorted sLT r ∧ r.Perm (x :: t))
    ∧ (∀ fuel : Nat, mergeSortF sLT fuel ([] : List Soldier) = none) := by
  refine ⟨?_, ?_, ?_, ?_, ?_⟩
  · intro l
    exact ⟨insertion_sort_sorted sLT_irrefl sLT_trans' sLT_negtrans' l,
      insertion_sort_perm sLT_irrefl sLT_trans' sLT_negtrans' l⟩
  · intro l
    exact ⟨shaker_sort_sorted sLT_irrefl sLT_trans' sLT_negtrans' l, shaker_sort_perm l⟩
  · intro l
    exact ⟨NDSorted_insFold sLT_irrefl sLT_trans' l, insFold_perm l⟩
  · intro x t
    obtain ⟨r, h1, h2, h3⟩ := merge_sort_cons_eq_some sLT_irrefl sLT_trans' sLT_negtrans' x t
    exact ⟨r, h1, h3, h2⟩
  · exact mergeSortF_nil_eq_none

/-- C2 counterexample: two records with equal ordering keys (same unit,
name and salary; different job).  The merge primitive takes the RIGHT
sub-range's element first on this tie, and `merge_sort` on the two-element
list swaps the tied records — the claimed left-first tie-breaking and
stability are false. -/
theorem claim_C2_counterexample :
    sLT ⟨"n", "j1", "u", 5⟩ ⟨"n", "j2", "u", 5⟩ = false ∧
    sLT ⟨"n", "j2", "u", 5⟩ ⟨"n", "j1", "u", 5⟩ = false ∧
    (⟨"n", "j1", "u", 5⟩ : Soldier) ≠ ⟨"n", "j2", "u", 5⟩ ∧
    merge sLT [⟨"n", "j1", "u", 5⟩] [⟨"n", "j2", "u", 5⟩] =
      [⟨"n", "j2", "u", 5⟩, ⟨"n", "j1", "u", 5⟩] ∧
    merge_sort sLT [⟨"n", "j1", "u", 5⟩, ⟨"n", "j2", "u", 5⟩] =
      some [⟨"n", "j2", "u", 5⟩, ⟨"n", "j1", "u", 5⟩] := by
  have h : sLT ⟨"n", "j1", "u", 5⟩ ⟨"n", "j2", "u", 5⟩ = false := by decide
  refine ⟨h, by decide, by decide, ?_, ?_⟩
  · simp [merge, h]
  · simp [merge_sort, mergeSortF, merge, h]

/-- C2 amended: in the merge primitive, whenever the left head does not
strictly precede the right head per the comparator — in particular when
the two compare equal — the element from the RIGHT sub-range is taken
first; consequently `merge_sort` is not stable: a tied two-element list
comes back reversed. -/
theorem claim_C2_right_on_ties :
    ∀ (x y : Soldier) (lx ly : List Soldier), sLT x y = false →
    (merge sLT (x :: lx) (y :: ly)).head? = some y ∧
    merge_sort sLT [x, y] = some [y, x] := by
  intro x y lx ly h
  constructor
  · simp [merge, h]
  · simp [merge_sort, mergeSortF, merge, h]

/-- Witness for `claim_C2_right_on_ties` at a concrete tied pair. -/
theorem claim_C2_witness :
    (merge sLT [⟨"n", "j1", "u", 5⟩] [⟨"n", "j2", "u", 5⟩]).head? =
        some ⟨"n", "j2", "u", 5⟩ ∧
    merge_sort sLT [⟨"n", "j1", "u", 5⟩, ⟨"n", "j2", "u", 5⟩] =
      some [⟨"n", "j2", "u", 5⟩, ⟨"n", "j1", "u", 5⟩] :=
  claim_C2_right_on_ties ⟨"n", "j1", "u", 5⟩ ⟨"n", "j2", "u", 5⟩ [] [] (by decide)

/-- C3: `merge_sort` reaches the base case on every non-empty range, but on
the empty range the claim fails: `first + 1 == last` is false and the
recursion calls itself on the same empty range forever — no amount of fuel
makes the modelled recursion return. -/
theorem claim_C3_termination :
    (∀ (x : Soldier) (t : List Soldier), ∃ r, merge_sort sLT (x :: t) = some r)
    ∧ (∀ fuel : Nat, mergeSortF sLT fuel ([] : List Soldier) = none) := by
  constructor
  · intro x t
    obtain ⟨r, h1, -, -⟩ := merge_sort_cons_eq_some sLT_irrefl sLT_trans' sLT_negtrans' x t
    exact ⟨r, h1⟩
  · exact mergeSortF_nil_eq_none

/-- C4: on a single-element sequence all four algorithms return the input
unchanged, and on the empty sequence `insertion_sort`, `shaker_sort` and
the `std::sort` baseline do too — but `merge_sort` never returns on the
empty sequence, so the claim fails there. -/
theorem claim_C4_boundary :
    insertion_sort sLT ([] : List Soldier) = [] ∧
    (∀ a : Soldier, insertion_sort sLT [a] = [a]) ∧
    shaker_sort sLT ([] : List Soldier) = [] ∧
    (∀ a : Soldier, shaker_sort sLT [a] = [a]) ∧
    stdSort sLT ([] : List Soldier) = [] ∧
    (∀ a : Soldier, stdSort sLT [a] = [a]) ∧
    (∀ a : Soldier, merge_sort sLT [a] = some [a]) ∧
    (∀ fuel : Nat, mergeSortF sLT fuel ([] : List Soldier) = none) :=
  ⟨rfl, fun _ => rfl, rfl, fun _ => rfl, rfl, fun _ => rfl, fun _ => rfl,
    mergeSortF_nil_eq_none⟩

/-- C5: `insertion_sort` and `shaker_sort` are stable on records — for
every input, restricting the output to the records whose ordering key tuple
equals any fixed record's key yields exactly the input's subsequence of
such records, i.e. tied records keep their relative order. -/
theorem claim_C5_stability :
    ∀ (a : Soldier) (l : List Soldier),
    (insertion_sort sLT l).filter (fun x => sameKey x a) =
        l.filter (fun x => sameKey x a) ∧
    (shaker_sort sLT l).filter (fun x => sameKey x a) =
        l.filter (fun x => sameKey x a) := by
  intro a l
  have hfun : (fun x => sameKey x a) = eqvB sLT a := by
    funext x
    rw [Bool.eq_iff_iff]
    exact (eqvB_sLT_iff_sameKey a x).symm
  rw [hfun]
  exact ⟨insertion_sort_stable sLT_irrefl sLT_trans' sLT_negtrans' a l,
    shaker_sort_stable sLT_irrefl sLT_negtrans' a l⟩

/-- C6 counterexample: with dataset file 1 missing, `get_time` does not
surface a per-index failure — it completes normally, records a `(0, 1)`
sample for index 1 (size zero: the empty collection), writes an empty
output file for that index, and only prints the generic
`read_csv: Couldn't open file` message (counted by `msgs`). -/
theorem claim_C6_counterexample :
    get_time (fun _ => none) (fun n => (n : Int)) 1 "insertion_sort" =
      Except.ok ⟨[0], [1], [("data/out/insertion/dataset_1.csv", [])], 1⟩ := by
  decide

/-- C6 amended: a missing or unreadable dataset file surfaces no per-index
failure.  `read_csv` prints one generic message (the `true` flag) and
returns the empty collection; with any selector other than `merge_sort`,
`get_time` silently continues the run — missing index `t+1` still gets a
size-0 sample and an empty output file, and the series keep full length `j`;
with the `merge_sort` selector the run does not report the index either: it
never returns, because `merge_sort` diverges on the empty collection. -/
theorem claim_C6_missing_file_continues :
    ∀ (fs : String → Option (List String)) (clock : Nat → Int) (j : Nat),
    read_csv none = Except.ok ([], true)
    ∧ (∀ algo : String, algo ≠ "merge_sort" →
        (∀ k, 1 ≤ k → k ≤ j → ∃ p, read_csv (fs (inPath k)) = Except.ok p) →
        ∃ r, get_time fs clock j algo = Except.ok r ∧
          r.x.length = j ∧ r.y.length = j ∧
          (∀ t, t < j → fs (inPath (t+1)) = none →
            r.x.getD t 0 = 0 ∧ r.writes.getD t ("", []) = (outPath (t+1), [])))
    ∧ (1 ≤ j → fs (inPath 1) = none →
        get_time fs clock j "merge_sort" = Except.error RunStop.diverge) := by
  intro fs clock j
  refine ⟨rfl, ?_, ?_⟩
  · intro algo halgo hreads
    obtain ⟨r, hr, hx, hy, hmiss⟩ := getTimeLoop_noDiverge halgo j 1
      (fun k hk1 hk2 => hreads k hk1 (by omega))
    refine ⟨r, hr, hx, hy, ?_⟩
    intro t ht hnone
    have e : 1 + t = t + 1 := Nat.add_comm 1 t
    obtain ⟨ha, hb⟩ := hmiss t ht (by rw [e]; exact hnone)
    exact ⟨ha, by rw [hb, e]⟩
  · intro hj hnone
    obtain ⟨j', rfl⟩ : ∃ j', j = j' + 1 := ⟨j - 1, by omega⟩
    have hread : read_csv (fs (inPath 1)) = Except.ok (([] : List Soldier), true) := by
      rw [hnone]
      rfl
    show getTimeLoop fs clock "merge_sort" 1 (j'+1) = Except.error RunStop.diverge
    simp only [getTimeLoop, hread]
    rfl

/-- Witness for `claim_C6_missing_file_continues` with every file missing:
a one-index `shaker_sort` run completes with a size-0 sample and an empty
output file, and the same `merge_sort` run diverges. -/
theorem claim_C6_witness :
    (∃ r, get_time (fun _ => none) (fun n => (n : Int)) 1 "shaker_sort" = Except.ok r ∧
      r.x.length = 1 ∧ r.y.length = 1 ∧
      (∀ t, t < 1 → (none : Option (List String)) = none →
        r.x.getD t 0 = 0 ∧ r.writes.getD t ("", []) = (outPath (t+1), []))) ∧
    get_time (fun _ => none) (fun n => (n : Int)) 1 "merge_sort" =
      Except.error RunStop.diverge := by
  obtain ⟨-, h1, h2⟩ :=
    claim_C6_missing_file_continues (fun _ => none) (fun n => (n : Int)) 1
  exact ⟨h1 "shaker_sort" (by decide) (fun k hk1 hk2 => ⟨([], true), rfl⟩),
    h2 (by decide) rfl⟩

/-- C7: the destination of every file written by a successful `get_time`
run is `data/out/insertion/dataset_<index>.csv` — keyed by the dataset
index but NOT segregated by algorithm name: the same destinations are used
for every algorithm selector, so the claim's per-algorithm sinks do not
exist in the code. -/
theorem claim_C7_insertion_path_for_all :
    ∀ (fs : String → Option (List String)) (clock : Nat → Int) (j : Nat)
      (algo : String) (r : GtOut),
    get_time fs clock j algo = Except.ok r →
    r.writes.map Prod.fst = (List.range j).map (fun t => outPath (1 + t)) := by
  intro fs clock j algo r h
  exact getTimeLoop_writes j 1 r h

/-- Witness for `claim_C7_insertion_path_for_all`: a concrete successful
run of the `std::sort` branch still writes under `data/out/insertion/`. -/
theorem claim_C7_witness :
    (GtOut.mk [1] [1] [("data/out/insertion/dataset_1.csv", ["a,b,c,1"])] 0).writes.map
        Prod.fst = (List.range 1).map (fun t => outPath (1 + t)) :=
  claim_C7_insertion_path_for_all (fun _ => some ["a,b,c,1"]) (fun n => (n : Int)) 1
    "std::sort" ⟨[1], [1], [("data/out/insertion/dataset_1.csv", ["a,b,c,1"])], 0⟩
    (by decide)

/-- C8 counterexample: the line `a,b,c,12abc` has a non-numeric
compensation field, yet `read_csv` does not fail fast: `std::stoi` parses
the digit prefix and the record is silently coerced into the collection
with salary 12. -/
theorem claim_C8_counterexample :
    read_csv (some ["a,b,c,12abc"]) =
      Except.ok ([⟨"a", "b", "c", 12⟩], false) := by
  decide

/-- C8 amended: a record whose compensation field has no digit prefix, or
whose digit prefix's value does not fit in `int`, fails fast with the
uncaught `std::stoi` exception and is never added; a compensation field
with an in-range digit prefix is accepted with the prefix's value even when
followed by junk (silent coercion); a line that `std::getline` splits into
fewer than four tokens — missing fields, or a trailing comma after three
fields — hits out-of-bounds `std::vector` indexing (undefined behaviour)
rather than a clean parse error. -/
theorem claim_C8_parse_behaviour :
    (∀ (f0 f1 f2 f3 : String) (rest : List String), stoiOpt f3 = none →
        parseFields (f0 :: f1 :: f2 :: f3 :: rest) = Except.error ParseErr.stoiExc)
    ∧ (∀ (f0 f1 f2 f3 : String) (rest : List String) (n : Int), stoiOpt f3 = some n →
        parseFields (f0 :: f1 :: f2 :: f3 :: rest) = Except.ok ⟨f0, f1, f2, n⟩)
    ∧ (∀ fs : List String, fs.length < 4 → parseFields fs = Except.error ParseErr.oob)
    ∧ stoiOpt "12abc" = some 12 ∧ stoiOpt "abc" = none
    ∧ stoiOpt "99999999999999999999abc" = none
    ∧ parseLine "a,b,c," = Except.error ParseErr.oob := by
  refine ⟨?_, ?_, ?_, by decide, by decide, by decide, by decide⟩
  · intro f0 f1 f2 f3 rest h
    simp [parseFields, h]
  · intro f0 f1 f2 f3 rest n h
    simp [parseFields, h]
  · intro fs h
    rcases fs with _ | ⟨a, _ | ⟨b, _ | ⟨c, _ | ⟨d, t⟩⟩⟩⟩
    · rfl
    · rfl
    · rfl
    · rfl
    · simp at h
      omega

/-- Witness for `claim_C8_parse_behaviour` at concrete malformed lines. -/
theorem claim_C8_witness :
    parseFields ["a", "b", "c", "xyz"] = Except.error ParseErr.stoiExc ∧
    parseFields ["a", "b"] = Except.error ParseErr.oob :=
  ⟨claim_C8_parse_behaviour.1 "a" "b" "c" "xyz" [] (by decide),
    claim_C8_parse_behaviour.2.2.1 ["a", "b"] (by decide)⟩

/-- C9: a `get_time` run that returns (count ≥ 1, recognized algorithm,
monotone clock) yields two parallel series of length `j`: entry `i` of the
size series is the size of dataset `i+1` (in index order 1..j) and every
elapsed value is non-negative. -/
theorem claim_C9_series_shape :
    ∀ (fs : String → Option (List String)) (clock : Nat → Int) (j : Nat)
      (algo : String) (r : GtOut),
    1 ≤ j →
    algo ∈ ["insertion_sort", "shaker_sort", "merge_sort", "std::sort"] →
    Monotone clock →
    get_time fs clock j algo = Except.ok r →
    r.x.length = j ∧ r.y.length = j ∧
    (∀ i, i < j → r.x.getD i 0 = loadSize fs (i + 1)) ∧
    (∀ v ∈ r.y, 0 ≤ v) := by
  intro fs clock j algo r _ _ hmono h
  obtain ⟨h1, h2, h3, h4⟩ := getTimeLoop_ok hmono j 1 r h
  refine ⟨h1, h2, ?_, h4⟩
  intro i hi
  rw [h3 i hi]
  exact congrArg (loadSize fs) (by omega)

/-- Witness for `claim_C9_series_shape` on a concrete one-dataset run. -/
theorem claim_C9_witness :
    (GtOut.mk [1] [1] [("data/out/insertion/dataset_1.csv", ["a,b,c,1"])] 0).x.length = 1 ∧
    (GtOut.mk [1] [1] [("data/out/insertion/dataset_1.csv", ["a,b,c,1"])] 0).y.length = 1 ∧
    (∀ i, i < 1 →
      (GtOut.mk [1] [1] [("data/out/insertion/dataset_1.csv", ["a,b,c,1"])] 0).x.getD i 0 =
        loadSize (fun _ => some ["a,b,c,1"]) (i + 1)) ∧
    (∀ v ∈ (GtOut.mk [1] [1] [("data/out/insertion/dataset_1.csv", ["a,b,c,1"])] 0).y,
      0 ≤ v) :=
  claim_C9_series_shape (fun _ => some ["a,b,c,1"]) (fun n => (n : Int)) 1
    "insertion_sort" ⟨[1], [1], [("data/out/insertion/dataset_1.csv", ["a,b,c,1"])], 0⟩
    (by decide) (by decide) (fun a b hab => Int.ofNat_le.mpr hab) (by decide)

/-- C10: an unrecognized algorithm selector raises no error: with readable
datasets, `get_time` still returns full-length series and writes each
loaded collection, unsorted, to the per-index output sink. -/
theorem claim_C10_unknown_selector :
    ∀ (fs : String → Option (List String)) (clock : Nat → Int) (j : Nat) (algo : String),
    algo ≠ "insertion_sort" → algo ≠ "shaker_sort" →
    algo ≠ "merge_sort" → algo ≠ "std::sort" →
    (∀ k, 1 ≤ k → k ≤ j → ∃ p, read_csv (fs (inPath k)) = Except.ok p) →
    ∃ r, get_time fs clock j algo = Except.ok r ∧
      r.x.length = j ∧ r.y.length = j ∧
      r.writes = (List.range j).map
        (fun t => (outPath (1 + t), write_csv (loadRecs fs (1 + t)))) := by
  intro fs clock j algo h1 h2 h3 h4 hreads
  exact getTimeLoop_unknown h1 h2 h3 h4 j 1
    (fun k hk1 hk2 => hreads k hk1 (by omega))

/-- Witness for `claim_C10_unknown_selector` with the selector
`"bubble_sort"` on a concrete readable dataset. -/
theorem claim_C10_witness :
    ∃ r, get_time (fun _ => some ["a,b,c,1"]) (fun n => (n : Int)) 1 "bubble_sort" =
        Except.ok r ∧
      r.x.length = 1 ∧ r.y.length = 1 ∧
      r.writes = (List.range 1).map
        (fun t => (outPath (1 + t),
          write_csv (loadRecs (fun _ => some ["a,b,c,1"]) (1 + t)))) :=
  claim_C10_unknown_selector (fun _ => some ["a,b,c,1"]) (fun n => (n : Int)) 1
    "bubble_sort" (by decide) (by decide) (by decide) (by decide)
    (fun k _ _ => ⟨([⟨"a", "b", "c", 1⟩], false), rfl⟩)
